import Mathlib

/-!
Verification of the `trails` content-addressable memoization layer
(`trails/core.py`) against its specification.

The embedding models Python values that flow through the library (literals,
`Call` namedtuples, tuple spines for args / kwargs) as one inductive type
`Val`; the `Call(func, args, kwargs)` namedtuple is the `Val.call`
constructor, whose argument tuple and kwargs mapping are encoded as
`vcons`/`vnil` spines (kwargs entries are `kv` pairs).  Python dicts used as
registries (`graph`, `step_graph`, the on-disk files) are association lists
with first-match lookup and in-place overwrite.  Fallible Python code
(KeyError, ValueError, missing files) is modelled with `Option`.

External collaborators are modelled from the spec where the repository code
is not under src/ (noted on each definition): `hashabledict`
(trails/utils.py), `joblib.hash`/`joblib.dump`/`joblib.load` and
`dask.threaded.get`.
-/

namespace Trails

/-- Python values handled by the core: a hashable literal (modelled as an
integer), a `Call(func, args, kwargs)` namedtuple (the "Trail"), and the
tuple spines that encode a `Call`'s argument tuple and kwargs mapping.
`vcons v vs` is a tuple cell, `vnil` the empty tuple, `kv key v` one
kwargs entry. -/
inductive Val : Type where
  | lit   : Int → Val
  | call  : String → Val → Val → Val
  | vnil  : Val
  | vcons : Val → Val → Val
  | kv    : String → Val → Val
  deriving DecidableEq

/-- The Python test `isinstance(x, Call)`. -/
def Val.isCall : Val → Bool
  | .call _ _ _ => true
  | _ => false

/-- Build the tuple spine of a Python argument tuple. -/
def listToVal : List Val → Val :=
  fun l => l.foldr Val.vcons Val.vnil

/-- Build the kwargs spine of a keyword mapping. -/
def klistToVal : List (String × Val) → Val :=
  fun l => l.foldr (fun p r => Val.vcons (Val.kv p.1 p.2) r) Val.vnil

/-- Kernel-computable character comparison used to order kwargs keys. -/
def leChars : List Char → List Char → Bool
  | [], _ => true
  | _ :: _, [] => false
  | a :: as, b :: bs => if a = b then leChars as bs else decide (a < b)

/-- Kernel-computable string comparison used to order kwargs keys. -/
def strLeB (a b : String) : Bool := leChars a.data b.data

/-- Insert one kwargs entry into a key-ordered association list. -/
def insertSorted (p : String × Val) : List (String × Val) → List (String × Val)
  | [] => [p]
  | q :: qs => if strLeB p.1 q.1 then p :: q :: qs else q :: insertSorted p qs

/-- Modelled from the spec: `hashabledict` (trails/utils.py, not under src/)
wraps the kwargs dict in an order-insensitive hashable mapping, so that
`{a:1,b:2}` and `{b:2,a:1}` yield equal, equally-hashable Trails; iterating
it yields key/value pairs (as `Step.previous` does).  Modelled as the
key-sorted association list of the entries. -/
def hashabledict (kw : List (String × Val)) : List (String × Val) :=
  kw.foldr insertSorted []

/-- The `Call` namedtuple constructor: `Call(func, args, kwargs)`. -/
def Call (func : String) (args : List Val) (kwargs : List (String × Val)) : Val :=
  .call func (listToVal args) (klistToVal kwargs)

/-- Python runtime values passed to / returned from target functions during
an evaluation: a resolved plain value, some other Python object passed
through literally (for example an unresolved tuple or `Call`), or a `Step`
object (identified by its trail) that reached a call unresolved. -/
inductive PyV : Type where
  | int     : Int → PyV
  | pyobj   : Val → PyV
  | stepObj : Val → PyV
  deriving DecidableEq

/-- A Python function as the core uses it: its `__name__`, its compiled
form `__code__.co_code` / `__code__.co_consts` (opaque byte/constant
lists), and its calling behaviour on positional and keyword arguments;
results are modelled as integers. -/
structure Func where
  name : String
  co_code : List Nat
  co_consts : List Int
  impl : List PyV → List (String × PyV) → Int

/-- The `Step` object: its trail, target callable, and the positional and
keyword arguments exactly as supplied (`self.args`, `self.kwargs`; the raw
kwargs dict, not the `hashabledict` stored inside the trail).  The
back-reference `self.dc` is passed explicitly to each operation. -/
structure Step where
  trail : Val
  target : Func
  args : List Val
  kwargs : List (String × Val)

/-- An on-disk artifact name: either a trail itself (`make_path(self.trail)`)
or `trail + ('.store',)`, the 4-tuple naming the persisted result blob. -/
inductive PName : Type where
  | base  : Val → PName
  | store : Val → PName

/-- An executable entry of the shared dask graph: either
`(apply_with_kwargs, target, list(self.args), list(self.kwargs))` as
installed by `Step.recompute` — note `list(self.kwargs)` iterates the raw
kwargs dict and therefore yields only its KEYS — or
`(self.dc.load, self.trail + ('.store',))` as installed by
`Step.checkpoint`. -/
inductive Entry : Type where
  | task : Func → List Val → List String → Entry
  | load : PName → Entry

/-- First-match lookup in an association list (Python dict read). -/
def lookupA {κ α : Type} [DecidableEq κ] : List (κ × α) → κ → Option α
  | [], _ => none
  | (k', a) :: rest, k => if k = k' then some a else lookupA rest k

/-- In-place overwrite / append in an association list (Python dict write). -/
def upd {κ α : Type} [DecidableEq κ] : List (κ × α) → κ → α → List (κ × α)
  | [], k, a => [(k, a)]
  | (k', a') :: rest, k, a =>
      if k = k' then (k, a) :: rest else (k', a') :: upd rest k a

/-- The `DataCache`: its directory, the dask graph (trail → executable
entry), the step registry (trail → Step), the audit log of `record` calls,
and the on-disk state (result blobs and `.hash` manifest files, keyed by
file path). -/
structure DataCache where
  directory : String
  graph : List (Val × Entry)
  step_graph : List (Val × Step)
  observed : List (String × List PyV × List (String × PyV) × Int)
  blobs : List (String × Int)
  hashfiles : List (String × String)

/-- `DataCache.__init__`: fresh empty maps over a directory (the `os.mkdir`
side effect is not modelled). -/
def DataCache.init (directory : String) : DataCache :=
  ⟨directory, [], [], [], [], []⟩

/-- Unary integer serialization used by the digest model. -/
def encIntU (n : Int) : List Char :=
  (if n < 0 then ['m'] else ['p']) ++ List.replicate n.natAbs 'o'

/-- Comma-separated unary serialization of a byte list. -/
def encNatList (ns : List Nat) : List Char :=
  (ns.map (fun n => List.replicate n 'o' ++ [','])).flatten

/-- Comma-separated serialization of a constants list. -/
def encIntList (ns : List Int) : List Char :=
  (ns.map (fun n => encIntU n ++ [','])).flatten

/-- Serialization of a Python value, used by the digest model. -/
def encVal : Val → List Char
  | .lit n => 'L' :: encIntU n
  | .call f a k => 'C' :: (f.data ++ '(' :: encVal a ++ ';' :: encVal k ++ [')'])
  | .vnil => ['n']
  | .vcons v vs => 't' :: encVal v ++ ',' :: encVal vs
  | .kv key w => 'k' :: (key.data ++ ':' :: encVal w)

/-- Serialization of an argument tuple. -/
def encValList (l : List Val) : List Char :=
  (l.map (fun v => encVal v ++ [','])).flatten

/-- Serialization of a kwargs dict. -/
def encKwList (l : List (String × Val)) : List Char :=
  (l.map (fun p => p.1.data ++ ':' :: encVal p.2 ++ [','])).flatten

/-- The character filter that sanitizes a digest body. -/
def notHash : Char → Bool := fun c => c ≠ '#'

/-- Serialization of the `uniquity` tuple
`(self.trail, self.args, self.kwargs, self.target.__code__.co_code,
self.target.__code__.co_consts)` hashed by `Step.hash`. -/
def digestBody (s : Step) : List Char :=
  encVal s.trail ++ '.' :: encValList s.args ++ '.' :: encKwList s.kwargs
    ++ '.' :: encNatList s.target.co_code ++ '.' :: encIntList s.target.co_consts

/-- Modelled from the spec: the hashing collaborator (`joblib.hash`, a
"stable-digest function over arbitrary values", deterministic across runs
for structurally-equal inputs).  Modelled as a serialization-based digest
whose output always starts with the tag `#` and contains no further `#`,
standing in for the fixed-format hex digests joblib produces; the digest is
injective in the compiled-code components, modelling the collision-freeness
the design assumes of the hash. -/
def uniqDigest (s : Step) : String :=
  ⟨'#' :: (digestBody s).filter notHash⟩

/-- Modelled from the spec: `make_path(name_tuple)` derives a file path by
hashing the name tuple (`joblib.hash`); the digest is an identity-lookup
key, distinct from the content hash.  Modelled as a tagged serialization of
the name. -/
def make_path : PName → String
  | .base t => ⟨'B' :: encVal t⟩
  | .store t => ⟨'S' :: encVal t⟩

/-- `DataCache.store`: persist a value under the path derived from the name
(`joblib.dump`, modelled as a write to the blob map). -/
def DataCache.store (dc : DataCache) (nm : PName) (v : Int) : DataCache :=
  { dc with blobs := upd dc.blobs (dc.directory ++ "/" ++ make_path nm) v }

/-- `DataCache.load`: read a value back from the path derived from the name
(`joblib.load`; a missing file is an error, hence `Option`). -/
def DataCache.load (dc : DataCache) (nm : PName) : Option Int :=
  lookupA dc.blobs (dc.directory ++ "/" ++ make_path nm)

/-- `DataCache.load_hash`: read the stored hash manifest for a trail, or the
absent sentinel (`None`, modelled as `none`) when no hash file exists. -/
def DataCache.load_hash (dc : DataCache) (t : Val) : Option String :=
  lookupA dc.hashfiles (dc.directory ++ "/" ++ make_path (.base t) ++ ".hash")

/-- `DataCache.store_hash`: write the hash manifest file for a trail,
overwriting any previous value. -/
def DataCache.store_hash (dc : DataCache) (t : Val) (h : String) : DataCache :=
  { dc with
    hashfiles := upd dc.hashfiles (dc.directory ++ "/" ++ make_path (.base t) ++ ".hash") h }

/-- `Step.recompute`: (re)install this step's executable entry
`(apply_with_kwargs, self.target, list(self.args), list(self.kwargs))` into
the shared graph.  `self.kwargs` is the raw kwargs dict, so `list(...)`
yields only its keys (`s.kwargs.map Prod.fst`) — faithfully preserving the
source, which never stores the keyword values in the entry. -/
def Step.recompute (s : Step) (dc : DataCache) : DataCache :=
  { dc with graph := upd dc.graph s.trail (.task s.target s.args (s.kwargs.map Prod.fst)) }

/-- `Step.__init__`: bind the trail/target/arguments, register the step in
`step_graph` under its trail, and install its graph entry via
`recompute()`. -/
def Step.make (dc : DataCache) (trail : Val) (target : Func) (args : List Val)
    (kwargs : List (String × Val)) : DataCache × Step :=
  let s : Step := ⟨trail, target, args, kwargs⟩
  let dc := { dc with step_graph := upd dc.step_graph trail s }
  (s.recompute dc, s)

/-- `DataCache.step`: wrap a target as a graph node named by
`target.__name__`, building `Call(name, args, hashabledict(kwargs))`. -/
def DataCache.step (dc : DataCache) (target : Func) (args : List Val)
    (kwargs : List (String × Val)) : DataCache × Step :=
  Step.make dc (Call target.name args (hashabledict kwargs)) target args kwargs

/-- `Step.step` (chaining): prepend `self.trail` as the first positional
argument and build the child step. -/
def Step.step (s : Step) (dc : DataCache) (target : Func) (args : List Val)
    (kwargs : List (String × Val)) : DataCache × Step :=
  let args := s.trail :: args
  Step.make dc (Call target.name args (hashabledict kwargs)) target args kwargs

/-- Python `dict()` applied to a list of kwargs KEYS (strings), as happens
when the executor calls `apply_with_kwargs` on an entry built by
`Step.recompute` with a non-empty kwargs dict: `dict` treats each string as
a key/value sequence, raising `ValueError` for keys whose length is not 2
and otherwise producing a meaningless dict of characters — never the
original keyword arguments.  Modelled as failure for any non-empty list. -/
def pyDictOfKeys (ks : List String) : Option (List (String × PyV)) :=
  match ks with
  | [] => some []
  | _ :: _ => none

/-- `apply_with_kwargs(function, args, kwargs)`:
`function(*args, **dict(kwargs))`. -/
def apply_with_kwargs (f : Func) (args : List PyV) (kwargs : List String) : Option Int :=
  (pyDictOfKeys kwargs).map (fun d => f.impl args d)

/-- A graph value that is not itself a graph key is passed to the task's
function literally: a `lit` as the plain value, anything else as the Python
object it is. -/
def pyLiteral : Val → PyV
  | .lit n => .int n
  | v => .pyobj v

/-- Modelled from the spec: the Task Graph Executor (`dask.threaded.get`) —
"given a mapping from node-identity to an executable entry ... and a target
node-identity, returns the fully resolved value for that node", resolving
any argument that is itself a node-identity recursively and leaving other
values literal.  Recursion depth is bounded by explicit fuel (the executor
itself would not terminate on a cyclic graph); per-call memoization is a
performance contract and is not modelled.  A missing key or a failing task
is an error. -/
def dget : Nat → DataCache → Val → Option Int
  | 0, _, _ => none
  | fuel + 1, dc, key =>
    match lookupA dc.graph key with
    | none => none
    | some (.task f args kwKeys) =>
        match args.mapM (fun v =>
            match lookupA dc.graph v with
            | some _ => (dget fuel dc v).map PyV.int
            | none => some (pyLiteral v)) with
        | none => none
        | some rargs => apply_with_kwargs f rargs kwKeys
    | some (.load nm) => dc.load nm

/-- `Step.get`: evaluate the shared graph at this step's trail via the
executor. -/
def Step.get (fuel : Nat) (s : Step) (dc : DataCache) : Option Int :=
  dget fuel dc s.trail

/-- Does a spine (argument tuple or kwargs mapping) contain a `Call`-valued
entry? -/
def spineHasCall : Val → Bool
  | .vcons (.kv _ w) vs => w.isCall || spineHasCall vs
  | .vcons v vs => v.isCall || spineHasCall vs
  | _ => false

/-- `Step.has_deps`: true iff any positional or keyword value of the trail
is itself a `Call`. -/
def Step.has_deps (s : Step) : Bool :=
  match s.trail with
  | .call _ a k => spineHasCall a || spineHasCall k
  | _ => false

/-- One loop of `Step.previous` over a spine: for each `Call`-valued entry,
look the dependency's step up in `step_graph` (a missing entry is a
`KeyError`). -/
def prevSpine (sg : List (Val × Step)) : Val → Option (List Step)
  | .vcons (.kv _ w) vs =>
      if w.isCall then
        match lookupA sg w, prevSpine sg vs with
        | some s, some r => some (s :: r)
        | _, _ => none
      else prevSpine sg vs
  | .vcons v vs =>
      if v.isCall then
        match lookupA sg v, prevSpine sg vs with
        | some s, some r => some (s :: r)
        | _, _ => none
      else prevSpine sg vs
  | _ => some []

/-- `Step.previous`: the steps registered for the `Call`-valued entries of
`self.trail.args` (positional order) followed by those of
`self.trail.kwargs` (the mapping's iteration order). -/
def Step.previous (s : Step) (sg : List (Val × Step)) : Option (List Step) :=
  match s.trail with
  | .call _ a k => do
      let xs ← prevSpine sg a
      let ys ← prevSpine sg k
      pure (xs ++ ys)
  | _ => some []

/-- The recursion core of `Step.hash` over the registry: in node mode
(`true`) compute `step_graph[t].hash()` — the concatenated digests of the
direct dependencies (when `has_deps()`) prefixed to this step's own
`uniquity` digest; in spine mode (`false`) concatenate, left to right, the
node hashes of the `Call`-valued entries of an argument/kwargs spine
(`''.join(p.hash() for p in self.previous())`).  The recursion follows the
registration invariant `step_graph[t].trail == t` maintained by
`Step.__init__`. -/
def hashGo (sg : List (Val × Step)) : Bool → Val → Option String
  | true, Val.call f a k =>
      match lookupA sg (Val.call f a k) with
      | none => none
      | some s =>
          match hashGo sg false a, hashGo sg false k with
          | some pa, some pk =>
              some ((if s.has_deps then pa ++ pk else "") ++ uniqDigest s)
          | _, _ => none
  | true, t => (lookupA sg t).map uniqDigest
  | false, Val.vcons (Val.kv _ w) vs =>
      if w.isCall then
        match hashGo sg true w, hashGo sg false vs with
        | some h, some r => some (h ++ r)
        | _, _ => none
      else hashGo sg false vs
  | false, Val.vcons v vs =>
      if v.isCall then
        match hashGo sg true v, hashGo sg false vs with
        | some h, some r => some (h ++ r)
        | _, _ => none
      else hashGo sg false vs
  | false, _ => some ""

/-- Node-mode hash of a registered trail: `step_graph[t].hash()`. -/
def trailHash (sg : List (Val × Step)) (t : Val) : Option String :=
  hashGo sg true t

/-- `Step.hash`: the content-addressing digest of this step — the
concatenated recursive hashes of its direct dependencies (empty when
`has_deps()` is false) followed by the digest of
`(trail, args, kwargs, co_code, co_consts)`. -/
def Step.hash (s : Step) (sg : List (Val × Step)) : Option String :=
  match s.trail with
  | .call _ a k => do
      let pa ← hashGo sg false a
      let pk ← hashGo sg false k
      pure ((if s.has_deps then pa ++ pk else "") ++ uniqDigest s)
  | _ => some (uniqDigest s)

/-- The branch condition of `Step.checkpoint`:
`hash_ != self.dc.load_hash(self.trail) or recompute`. -/
abbrev staleOrForced (dc : DataCache) (hash_ : String) (t : Val) (r : Bool) : Prop :=
  some hash_ ≠ dc.load_hash t ∨ r = true

/-- `Step.checkpoint(recompute=False)`: compute `hash()`; if it differs from
the stored hash (including the absent sentinel) or recomputation is forced,
recompute the step (`recompute()` then `get()`), persist the result under
`trail + ('.store',)` and store the new hash; in every case replace the
graph entry for the trail with a load-from-disk entry for
`trail + ('.store',)` and return `self`. -/
def Step.checkpoint (fuel : Nat) (s : Step) (dc : DataCache) (r : Bool) :
    Option (DataCache × Step) := do
  let hash_ ← s.hash dc.step_graph
  let dc2 ←
    if staleOrForced dc hash_ s.trail r then do
      let dcA := s.recompute dc
      let result ← dget fuel dcA s.trail
      let dcB := dcA.store (.store s.trail) result
      pure (dcB.store_hash s.trail hash_)
    else pure dc
  pure ({ dc2 with graph := upd dc2.graph s.trail (.load (.store s.trail)) }, s)

/-- `DataCache.record`: resolve each POSITIONAL argument that is a `Step`
object to its evaluated value (`arg.get()`), invoke the target directly
with the processed positionals and the raw kwargs dict (keyword `Step`
values are NOT resolved by the source), append
`(target.__name__, args, kwargs, result)` — the original arguments — to the
audit log, and return the result. -/
def DataCache.record (fuel : Nat) (dc : DataCache) (target : Func)
    (args : List PyV) (kwargs : List (String × PyV)) : Option (DataCache × Int) := do
  let processed ← args.mapM (fun a =>
    match a with
    | .stepObj t => (dget fuel dc t).map PyV.int
    | a => some a)
  let result := target.impl processed kwargs
  pure ({ dc with observed := dc.observed ++ [(target.name, args, kwargs, result)] }, result)

/-- `Step.record`: `self.dc.record(self.target, *self.args, **self.kwargs)` —
the stored arguments are Python values (trails or literals), not `Step`
objects. -/
def Step.record (fuel : Nat) (s : Step) (dc : DataCache) : Option (DataCache × Int) :=
  dc.record fuel s.target (s.args.map pyLiteral)
    (s.kwargs.map (fun p => (p.1, pyLiteral p.2)))

/-- Python `str()` of a tuple given the renderings of its elements
(including the single-element trailing comma). -/
def tupleStr (elems : List String) : String :=
  "(" ++ String.intercalate ", " elems
    ++ (if elems.length = 1 then ",)" else ")")

/-- Python `repr` of a value as it appears inside an audit line: node mode
(`true`) yields the one rendering of a value, spine mode (`false`) the
renderings of a tuple/kwargs spine's elements.  The rendering of the
external `hashabledict` is approximate; no claim depends on it. -/
def pyReprGo : Bool → Val → List String
  | true, .lit n => [toString n]
  | true, .call f a k =>
      ["Call(func=\x27" ++ f ++ "\x27, args=" ++ tupleStr (pyReprGo false a)
        ++ ", kwargs=hashabledict(" ++ String.intercalate ", " (pyReprGo false k) ++ "))"]
  | true, .vnil => ["()"]
  | true, .vcons v vs => [tupleStr (pyReprGo true v ++ pyReprGo false vs)]
  | true, .kv key w => (pyReprGo true w).map (fun r => "\x27" ++ key ++ "\x27: " ++ r)
  | false, .vcons (.kv key w) vs =>
      ((pyReprGo true w).map (fun r => "\x27" ++ key ++ "\x27: " ++ r)) ++ pyReprGo false vs
  | false, .vcons v vs => pyReprGo true v ++ pyReprGo false vs
  | false, _ => []

/-- Python `str()` of one recorded argument as `summary` renders it — except
that a `Step` argument is replaced by `a.name`, an attribute `Step` does not
have: the source raises `AttributeError` there, modelled as `none`. -/
def summaryArg : PyV → Option String
  | .stepObj _ => none
  | .int n => some (toString n)
  | .pyobj v => some (String.intercalate "" (pyReprGo true v))

/-- `DataCache.summary`: render the audit log as newline-joined
`name(args) = result` lines in insertion order, substituting `a.name` for
any `Step` argument — which raises `AttributeError`, since `Step` has no
`name` attribute. -/
def DataCache.summary (dc : DataCache) : Option String := do
  let lines ← dc.observed.mapM (fun ob => do
    let rendered ← ob.2.1.mapM summaryArg
    pure (ob.1 ++ tupleStr rendered ++ " = " ++ toString ob.2.2.2))
  pure (String.intercalate "\n" lines)

/-! Association-list (Python dict) lemmas. -/

theorem lookupA_upd_self {κ α : Type} [DecidableEq κ] (l : List (κ × α)) (k : κ) (v : α) :
    lookupA (upd l k v) k = some v := by
  induction l with
  | nil => simp [upd, lookupA]
  | cons p rest ih =>
      by_cases h : k = p.1
      · simp [upd, h, lookupA]
      · simp [upd, h, lookupA, ih]

theorem lookupA_upd_ne {κ α : Type} [DecidableEq κ] (l : List (κ × α)) (k t : κ) (v : α)
    (h : t ≠ k) : lookupA (upd l k v) t = lookupA l t := by
  induction l with
  | nil => simp [upd, lookupA, h]
  | cons p rest ih =>
      by_cases hk : k = p.1
      · subst hk
        simp [upd, lookupA, h, if_neg h]
      · by_cases ht : t = p.1
        · simp [upd, hk, lookupA, ht]
        · simp [upd, hk, lookupA, ht, ih]

theorem upd_upd_same {κ α : Type} [DecidableEq κ] (l : List (κ × α)) (k : κ) (v w : α) :
    upd (upd l k v) k w = upd l k w := by
  induction l with
  | nil => simp [upd]
  | cons p rest ih =>
      by_cases h : k = p.1
      · simp [upd, h]
      · simp [upd, h, ih]

theorem lookupA_upd_isSome {κ α : Type} [DecidableEq κ] (l : List (κ × α)) (k t : κ) (v : α) :
    (lookupA (upd l k v) t).isSome ↔ (t = k ∨ (lookupA l t).isSome) := by
  by_cases h : t = k
  · subst h; simp [lookupA_upd_self]
  · simp [lookupA_upd_ne l k t v h, h]

/-! Fixture pipeline used by witnesses: `square(3)` chained into `addOne`,
plus a keyword-probing function. -/

/-- Fixture: `square`. -/
def sqFn : Func :=
  ⟨"square", [10, 11], [0], fun args _ =>
    match args with
    | [.int n] => n * n
    | _ => -1⟩

/-- Fixture: `addOne`. -/
def incFn : Func :=
  ⟨"addOne", [20], [1], fun args _ =>
    match args with
    | [.int n] => n + 1
    | _ => -1⟩

/-- Fixture: a function that returns its keyword argument `x` when it
arrives as a plain resolved value, and `-99` otherwise. -/
def probeFn : Func :=
  ⟨"probe", [7], [], fun _ kw =>
    match lookupA kw "x" with
    | some (.int n) => n
    | _ => -99⟩

/-- Fixture: a fresh cache. -/
def dcEmpty : DataCache := DataCache.init "./dc"

/-- Fixture: the cache and step of `square(3)`. -/
def pipe1 : DataCache × Step := dcEmpty.step sqFn [.lit 3] []

/-- Fixture: the cache and step of `square(3)` chained into `addOne`. -/
def pipe2 : DataCache × Step := pipe1.2.step pipe1.1 incFn [] []

/-- Fixture: a step carrying a keyword argument (`probe(x=1)`). -/
def c4pipe : DataCache × Step := dcEmpty.step probeFn [] [("x", .lit 1)]

/-- C4: the claim says the entry installed by `recompute()` carries the
resolved keyword arguments as key/value pairs so that `get()` invokes the
target with the originally supplied kwargs.  The code instead stores
`list(self.kwargs)` — only the KEYS of the kwargs dict — so the entry for
`probe(x=1)` holds `["x"]` and evaluating it fails (`dict(['x'])` raises
`ValueError`), even though applying the target to the intended key/value
pairs would return `1`. -/
theorem C4_kwargs_entry_bug :
    lookupA c4pipe.1.graph c4pipe.2.trail = some (.task probeFn [] ["x"])
    ∧ Step.get 5 c4pipe.2 c4pipe.1 = none
    ∧ probeFn.impl [] [("x", PyV.int 1)] = 1 := by
  refine ⟨rfl, rfl, rfl⟩

/-- Fixture: the audit-log state produced by recording `addOne` applied to
the `square(3)` Step object (a positional `Step` argument, which `record`
resolves to `9` before the call and logs unresolved). -/
def c7rec : Option (DataCache × Int) :=
  pipe1.1.record 2 incFn [PyV.stepObj pipe1.2.trail] []

/-- C7: the claim says `summary()` renders each audit line replacing any
`Step` argument by its Trail's function name.  The code accesses `a.name`,
an attribute `Step` objects do not have (the function name lives at
`a.trail.func`), so `summary()` raises `AttributeError` on any log entry
whose arguments contain a Step: here recording `addOne(squareStep)`
succeeds (result `10`), but `summary()` fails. -/
theorem C7_summary_name_bug :
    c7rec = some (((c7rec.getD (dcEmpty, 0)).1), 10)
    ∧ (c7rec.getD (dcEmpty, 0)).1.summary = none := by
  refine ⟨rfl, rfl⟩

/-- C6 (counterexample): the claim says every keyword argument that is a
`Step` is resolved to its evaluated value before the target is invoked.
Recording `probe(x=squareStep)` returns `-99` — the target saw the raw
`Step` object — although the step evaluates to `9` and the target returns
`9` when given the resolved value. -/
theorem C6_kwargs_not_resolved :
    pipe1.1.record 2 probeFn [] [("x", PyV.stepObj pipe1.2.trail)]
      = some ({ pipe1.1 with observed := pipe1.1.observed
          ++ [("probe", [], [("x", PyV.stepObj pipe1.2.trail)], -99)] }, -99)
    ∧ dget 2 pipe1.1 pipe1.2.trail = some 9
    ∧ probeFn.impl [] [("x", PyV.int 9)] = 9
    ∧ (-99 : Int) ≠ 9 := by
  refine ⟨rfl, rfl, rfl, by decide⟩

/-- C6 (amended): `record` resolves each POSITIONAL argument that is a
`Step` to its evaluated value, invokes the target directly with those
processed positionals and the raw keyword arguments (keyword `Step` values
are passed through unresolved), appends `(name, args, kwargs, result)` with
the original arguments to the audit log, and returns the result. -/
theorem C6_record (fuel : Nat) (dc : DataCache) (target : Func) (args : List PyV)
    (kwargs : List (String × PyV)) (processed : List PyV)
    (hres : args.mapM (fun a =>
      match a with
      | .stepObj t => (dget fuel dc t).map PyV.int
      | a => some a) = some processed) :
    dc.record fuel target args kwargs =
      some ({ dc with observed := dc.observed
          ++ [(target.name, args, kwargs, target.impl processed kwargs)] },
        target.impl processed kwargs) := by
  unfold DataCache.record
  rw [hres]
  rfl

/-- C6 witness: the amended description instantiated on recording
`addOne(squareStep)`, whose positional Step argument resolves to `9`. -/
theorem C6_record_witness :
    pipe1.1.record 2 incFn [PyV.stepObj pipe1.2.trail] []
      = some ({ pipe1.1 with observed := pipe1.1.observed
          ++ [("addOne", [PyV.stepObj pipe1.2.trail], [], 10)] }, 10) :=
  C6_record 2 pipe1.1 incFn [PyV.stepObj pipe1.2.trail] [] [PyV.int 9] rfl

/-- A trail whose argument tuple starts with `t` is distinct from `t`
itself (its size is strictly larger). -/
theorem call_arg_ne (g : String) (t : Val) (rest : List Val)
    (kw : List (String × Val)) : Call g (t :: rest) kw ≠ t := by
  intro h
  have hs := congrArg sizeOf h
  simp [Call, listToVal] at hs
  omega

/-- C10: Trails identify functions only by name — two distinct targets with
equal `__name__` and equal arguments produce equal Trails, so the second
`DataCache.step` overwrites the first step's entries in both `step_graph`
and `graph`, and both maps afterwards answer with the second function. -/
theorem C10_name_only_identity (dc : DataCache) (f g : Func) (args : List Val)
    (kw : List (String × Val)) (hname : f.name = g.name) (_hne : f ≠ g) :
    ((dc.step f args kw).1.step g args kw).2.trail = (dc.step f args kw).2.trail
    ∧ lookupA ((dc.step f args kw).1.step g args kw).1.step_graph
        (dc.step f args kw).2.trail = some ((dc.step f args kw).1.step g args kw).2
    ∧ lookupA ((dc.step f args kw).1.step g args kw).1.graph
        (dc.step f args kw).2.trail = some (.task g args (kw.map Prod.fst))
    ∧ ((dc.step f args kw).1.step g args kw).2.target = g := by
  simp only [DataCache.step, Step.make, Step.recompute, hname]
  refine ⟨trivial, ?_, ?_, trivial⟩
  · exact lookupA_upd_self _ _ _
  · rw [upd_upd_same]
    exact lookupA_upd_self _ _ _

/-- Fixture: a second function named `square` with different compiled code
(a changed implementation). -/
def sqFn2 : Func := ⟨"square", [10, 12], [0], sqFn.impl⟩

/-- C10 witness: `sqFn` and `sqFn2` share a name but differ; the second
registration owns both map entries. -/
theorem C10_name_only_identity_witness :
    ((dcEmpty.step sqFn [.lit 3] []).1.step sqFn2 [.lit 3] []).2.trail
      = (dcEmpty.step sqFn [.lit 3] []).2.trail
    ∧ lookupA ((dcEmpty.step sqFn [.lit 3] []).1.step sqFn2 [.lit 3] []).1.graph
        (dcEmpty.step sqFn [.lit 3] []).2.trail
      = some (.task sqFn2 [.lit 3] []) := by
  have h := C10_name_only_identity dcEmpty sqFn sqFn2 [.lit 3] [] rfl
    (fun h => absurd (congrArg Func.co_code h) (by decide))
  exact ⟨h.1, h.2.2.1⟩

/-- C8: chaining `stepA.step(g, x)` builds the trail
`Call(g.__name__, (trailA, x), {})`, and — as long as the parent is the
step registered for its trail — `previous()` of the child yields exactly
`[stepA]`. -/
theorem C8_chaining (dc : DataCache) (sA : Step) (g : Func) (x : Int)
    (hcall : sA.trail.isCall = true)
    (hreg : lookupA dc.step_graph sA.trail = some sA) :
    (sA.step dc g [.lit x] []).2.trail = Call g.name [sA.trail, .lit x] []
    ∧ (sA.step dc g [.lit x] []).2.previous (sA.step dc g [.lit x] []).1.step_graph
      = some [sA] := by
  refine ⟨rfl, ?_⟩
  obtain ⟨f0, a0, k0, ht⟩ : ∃ f0 a0 k0, sA.trail = Val.call f0 a0 k0 := by
    cases h : sA.trail
    case call f0 a0 k0 => exact ⟨f0, a0, k0, rfl⟩
    all_goals (rw [h] at hcall; simp [Val.isCall] at hcall)
  have hne : Val.call f0 a0 k0
      ≠ Call g.name [Val.call f0 a0 k0, .lit x] [] :=
    Ne.symm (call_arg_ne _ _ _ _)
  rw [ht] at hreg
  simp only [Step.step, Step.make, Step.recompute, Step.previous, Call, listToVal,
    klistToVal, hashabledict, List.foldr, ht]
  simp only [prevSpine, Val.isCall, if_true]
  rw [lookupA_upd_ne _ _ _ _ (by simpa [Call, listToVal, klistToVal, hashabledict] using hne),
    hreg]
  rfl

/-- C8 witness: chaining `addOne` onto the `square(3)` step. -/
theorem C8_chaining_witness :
    pipe2.2.trail = Call "addOne" [pipe1.2.trail, .lit 7] [] ∨
    (pipe1.2.step pipe1.1 incFn [.lit 7] []).2.previous
      (pipe1.2.step pipe1.1 incFn [.lit 7] []).1.step_graph = some [pipe1.2] :=
  Or.inr (C8_chaining pipe1.1 pipe1.2 incFn 7 rfl rfl).2

/-- The `Call`-valued entries of an argument/kwargs spine, in iteration
order: the dependency references `Step.previous` and `Step.hash` walk. -/
def spineDeps : Val → List Val
  | .vcons (.kv _ w) vs => if w.isCall then w :: spineDeps vs else spineDeps vs
  | .vcons v vs => if v.isCall then v :: spineDeps vs else spineDeps vs
  | _ => []

/-- The direct dependency references of a trail: its `Call`-valued
positional arguments in order, then its `Call`-valued keyword values in
the kwargs mapping's iteration order. -/
def depCalls : Val → List Val
  | .call _ a k => spineDeps a ++ spineDeps k
  | _ => []

theorem prevSpine_eq (sg : List (Val × Step)) (sp : Val) :
    prevSpine sg sp = (spineDeps sp).mapM (lookupA sg) := by
  induction sp with
  | vcons v vs ih_v ih_vs =>
      cases v with
      | kv key w =>
          by_cases hw : w.isCall
          · simp only [prevSpine, spineDeps, hw, if_true, List.mapM_cons, ih_vs]
            cases lookupA sg w <;> cases (spineDeps vs).mapM (lookupA sg) <;> simp
          · simp [prevSpine, spineDeps, hw, ih_vs]
      | call f a k =>
          simp only [prevSpine, spineDeps, Val.isCall, if_true, List.mapM_cons, ih_vs]
          cases lookupA sg (Val.call f a k) <;>
            cases (spineDeps vs).mapM (lookupA sg) <;> simp
      | lit n => simp [prevSpine, spineDeps, Val.isCall, ih_vs]
      | vnil => simp [prevSpine, spineDeps, Val.isCall, ih_vs]
      | vcons a b => simp [prevSpine, spineDeps, Val.isCall, ih_vs]
  | lit n => rfl
  | call f a k _ _ => rfl
  | vnil => rfl
  | kv key w _ => rfl

/-- C5: `previous()` yields exactly the registered steps of the
`Call`-valued positional arguments, in positional order, followed by those
of the `Call`-valued keyword values in the kwargs mapping's iteration
order; in particular a step whose only dependency arrives as a keyword
argument yields exactly that dependency. -/
theorem C5_previous_order :
    (∀ (sg : List (Val × Step)) (s : Step),
      s.previous sg = (depCalls s.trail).mapM (lookupA sg))
    ∧ (∀ (sg : List (Val × Step)) (n key : String) (u : Val) (tg : Func) (d : Step),
        u.isCall = true → lookupA sg u = some d →
        Step.previous ⟨Call n [] [(key, u)], tg, [], [(key, u)]⟩ sg = some [d]) := by
  constructor
  · intro sg s
    match hs : s.trail with
    | .call f a k =>
        simp only [Step.previous, hs, depCalls, List.mapM_append, prevSpine_eq]
    | .lit n => simp only [Step.previous, hs, depCalls]; rfl
    | .vnil => simp only [Step.previous, hs, depCalls]; rfl
    | .vcons a b => simp only [Step.previous, hs, depCalls]; rfl
    | .kv key w => simp only [Step.previous, hs, depCalls]; rfl
  · intro sg n key u tg d hu hd
    simp only [Step.previous, Call, listToVal, klistToVal, hashabledict, List.foldr,
      insertSorted, prevSpine, hu, if_true, hd]
    rfl

/-- C5 witness: the chained pipeline's `previous()` in `depCalls` order,
and a keyword-only dependency yielding the `square(3)` step. -/
theorem C5_previous_order_witness :
    pipe2.2.previous pipe2.1.step_graph
      = (depCalls pipe2.2.trail).mapM (lookupA pipe2.1.step_graph)
    ∧ Step.previous ⟨Call "h" [] [("x", pipe1.2.trail)], incFn, [], [("x", pipe1.2.trail)]⟩
        pipe1.1.step_graph = some [pipe1.2] :=
  ⟨C5_previous_order.1 pipe2.1.step_graph pipe2.2,
   C5_previous_order.2 pipe1.1.step_graph "h" "x" pipe1.2.trail incFn pipe1.2 rfl rfl⟩

/-- The `graph` / `step_graph` key-set invariant of a cache. -/
def sameKeys (dc : DataCache) : Prop :=
  ∀ t : Val, (lookupA dc.graph t).isSome ↔ (lookupA dc.step_graph t).isSome

theorem sameKeys_make (dc : DataCache) (trail : Val) (target : Func) (args : List Val)
    (kwargs : List (String × Val)) (h : sameKeys dc) :
    sameKeys (Step.make dc trail target args kwargs).1 := by
  intro t
  simp only [Step.make, Step.recompute, lookupA_upd_isSome]
  exact or_congr Iff.rfl (h t)

/-- C9: `graph` and `step_graph` always share a key set: a fresh cache has
both empty, each step construction (`DataCache.step` / `Step.step`) inserts
the same trail in both, and `recompute()` / `checkpoint()` only overwrite
the graph entry at an existing key, leaving both key sets (and the whole
`step_graph`) unchanged. -/
theorem C9_key_sets :
    (∀ d, sameKeys (DataCache.init d))
    ∧ (∀ dc target args kw, sameKeys dc → sameKeys (DataCache.step dc target args kw).1)
    ∧ (∀ dc (s : Step) target args kw, sameKeys dc → sameKeys (Step.step s dc target args kw).1)
    ∧ (∀ dc (s : Step), sameKeys dc → (lookupA dc.graph s.trail).isSome →
        (∀ t, (lookupA (s.recompute dc).graph t).isSome ↔ (lookupA dc.graph t).isSome)
        ∧ (s.recompute dc).step_graph = dc.step_graph)
    ∧ (∀ fuel dc (s : Step) r dc' s', sameKeys dc → (lookupA dc.graph s.trail).isSome →
        s.checkpoint fuel dc r = some (dc', s') →
        (∀ t, (lookupA dc'.graph t).isSome ↔ (lookupA dc.graph t).isSome)
        ∧ dc'.step_graph = dc.step_graph) := by
  refine ⟨?_, ?_, ?_, ?_, ?_⟩
  · intro d t
    simp [DataCache.init, lookupA]
  · intro dc target args kw h
    exact sameKeys_make dc _ target args kw h
  · intro dc s target args kw h
    simp only [Step.step]
    exact sameKeys_make dc _ target (s.trail :: args) kw h
  · intro dc s h hmem
    refine ⟨?_, rfl⟩
    intro t
    simp only [Step.recompute, lookupA_upd_isSome]
    constructor
    · rintro (rfl | hs)
      · exact hmem
      · exact hs
    · intro hs; exact Or.inr hs
  · intro fuel dc s r dc' s' h hmem hcp
    unfold Step.checkpoint at hcp
    cases hh : s.hash dc.step_graph with
    | none => rw [hh] at hcp; simp at hcp
    | some h0 =>
        rw [hh] at hcp
        simp only [Option.bind_eq_bind, Option.some_bind] at hcp
        split at hcp
        · cases hdg : dget fuel (s.recompute dc) s.trail with
          | none => rw [hdg] at hcp; simp at hcp
          | some res =>
              rw [hdg] at hcp
              simp only [Option.pure_def, Option.some_bind, Option.some.injEq,
                Prod.mk.injEq] at hcp
              obtain ⟨hdc, _⟩ := hcp
              subst hdc
              refine ⟨?_, rfl⟩
              intro t
              simp only [DataCache.store_hash, DataCache.store, Step.recompute,
                upd_upd_same, lookupA_upd_isSome]
              constructor
              · rintro (rfl | hs)
                · exact hmem
                · exact hs
              · intro hs; exact Or.inr hs
        · simp only [Option.pure_def, Option.some_bind, Option.some.injEq,
            Prod.mk.injEq] at hcp
          obtain ⟨hdc, _⟩ := hcp
          subst hdc
          refine ⟨?_, rfl⟩
          intro t
          simp only [lookupA_upd_isSome]
          constructor
          · rintro (rfl | hs)
            · exact hmem
            · exact hs
          · intro hs; exact Or.inr hs

/-- C9 witness: the invariant checked across a concrete construction,
recompute and checkpoint. -/
theorem C9_key_sets_witness :
    ((lookupA (DataCache.init "./dc").graph (Val.lit 0)).isSome
      ↔ (lookupA (DataCache.init "./dc").step_graph (Val.lit 0)).isSome)
    ∧ ((lookupA pipe2.1.graph pipe2.2.trail).isSome
        ↔ (lookupA pipe2.1.step_graph pipe2.2.trail).isSome)
    ∧ ((Step.recompute pipe2.2 pipe2.1).step_graph = pipe2.1.step_graph) := by
  have h0 := C9_key_sets.1 "./dc"
  have h1 := C9_key_sets.2.1 dcEmpty sqFn [.lit 3] [] h0
  have h2 := C9_key_sets.2.2.1 pipe1.1 pipe1.2 incFn [] [] h1
  have h3 := C9_key_sets.2.2.2.1 pipe2.1 pipe2.2 h2 (by rfl)
  exact ⟨h0 (Val.lit 0), h2 pipe2.2.trail, h3.2⟩


/-- C1: `checkpoint(recompute)` compares the freshly computed `hash()` with
the stored hash for the trail; when they differ (including the absent
sentinel) or `recompute` is forced, it recomputes (`recompute()` then
`get()`), persists the result under `trail + ('.store',)` and stores the
new hash; in every case it then replaces the graph entry for the trail
with a load-from-disk entry for `trail + ('.store',)` and returns `self`. -/
theorem C1_checkpoint (fuel : Nat) (s : Step) (dc : DataCache) (r : Bool) (h : String)
    (hh : s.hash dc.step_graph = some h) :
    (∀ res : Int, staleOrForced dc h s.trail r →
      dget fuel (s.recompute dc) s.trail = some res →
      s.checkpoint fuel dc r = some
        ({ ((s.recompute dc).store (.store s.trail) res).store_hash s.trail h with
            graph := upd ((((s.recompute dc).store (.store s.trail) res).store_hash
                s.trail h).graph) s.trail (.load (.store s.trail)) }, s))
    ∧ (¬ staleOrForced dc h s.trail r →
      s.checkpoint fuel dc r = some
        ({ dc with graph := upd dc.graph s.trail (.load (.store s.trail)) }, s)) := by
  constructor
  · intro res hcond hdg
    unfold Step.checkpoint
    rw [hh]
    simp only [Option.bind_eq_bind, Option.some_bind]
    rw [if_pos hcond, hdg]
    rfl
  · intro hcond
    unfold Step.checkpoint
    rw [hh]
    simp only [Option.bind_eq_bind, Option.some_bind]
    rw [if_neg hcond]
    rfl

/-- Fixture: the hash of the chained pipeline before any checkpoint. -/
def c1hash : String := (pipe2.2.hash pipe2.1.step_graph).getD ""

/-- C1 witness: checkpointing the chained pipeline with no stored hash
takes the recompute branch and produces exactly the store / store_hash /
rewire state. -/
theorem C1_checkpoint_witness :
    pipe2.2.hash pipe2.1.step_graph = some c1hash
    ∧ staleOrForced pipe2.1 c1hash pipe2.2.trail false
    ∧ dget 5 (pipe2.2.recompute pipe2.1) pipe2.2.trail = some 10
    ∧ pipe2.2.checkpoint 5 pipe2.1 false = some
        ({ ((pipe2.2.recompute pipe2.1).store (.store pipe2.2.trail) 10).store_hash
              pipe2.2.trail c1hash with
            graph := upd ((((pipe2.2.recompute pipe2.1).store (.store pipe2.2.trail)
                10).store_hash pipe2.2.trail c1hash).graph) pipe2.2.trail
              (.load (.store pipe2.2.trail)) }, pipe2.2) := by
  refine ⟨rfl, Or.inl (by intro hx; exact Option.noConfusion hx), rfl, ?_⟩
  exact (C1_checkpoint 5 pipe2.2 pipe2.1 false c1hash rfl).1 10
    (Or.inl (by intro hx; exact Option.noConfusion hx)) rfl

/-- C3: after a successful `checkpoint()`, the step registry is untouched,
the freshly computed hash now equals the stored hash, and an immediate
second `checkpoint()` (any fuel) takes the quiet branch — no recomputation,
no store — merely re-installing the already-present load entry, leaving the
cache exactly unchanged and returning `self`. -/
theorem C3_second_checkpoint (fuel fuel2 : Nat) (s : Step) (dc dc' : DataCache) (s' : Step)
    (h1 : s.checkpoint fuel dc false = some (dc', s')) :
    s' = s
    ∧ dc'.step_graph = dc.step_graph
    ∧ (∃ h : String, s.hash dc'.step_graph = some h ∧ dc'.load_hash s.trail = some h
        ∧ ¬ staleOrForced dc' h s.trail false)
    ∧ s.checkpoint fuel2 dc' false = some (dc', s) := by
  unfold Step.checkpoint at h1
  cases hh : s.hash dc.step_graph with
  | none => rw [hh] at h1; simp at h1
  | some h0 =>
      rw [hh] at h1
      simp only [Option.bind_eq_bind, Option.some_bind] at h1
      have main : dc'.step_graph = dc.step_graph
          ∧ dc'.load_hash s.trail = some h0
          ∧ upd dc'.graph s.trail (.load (.store s.trail)) = dc'.graph
          ∧ s' = s := by
        split at h1
        · cases hdg : dget fuel (s.recompute dc) s.trail with
          | none => rw [hdg] at h1; simp at h1
          | some res =>
              rw [hdg] at h1
              simp only [Option.pure_def, Option.some_bind, Option.some.injEq,
                Prod.mk.injEq] at h1
              obtain ⟨hdc, hs⟩ := h1
              refine ⟨by rw [← hdc]; rfl, ?_, ?_, hs.symm⟩
              · rw [← hdc]
                simp only [DataCache.load_hash, DataCache.store_hash, DataCache.store,
                  Step.recompute]
                exact lookupA_upd_self _ _ _
              · rw [← hdc]
                exact upd_upd_same _ _ _ _
        · rename_i hcond
          simp only [Option.pure_def, Option.some_bind, Option.some.injEq,
            Prod.mk.injEq] at h1
          obtain ⟨hdc, hs⟩ := h1
          have hstored : some h0 = dc.load_hash s.trail := by
            by_contra hne
            exact hcond (Or.inl hne)
          refine ⟨by rw [← hdc], ?_, ?_, hs.symm⟩
          · rw [← hdc]
            simp only [DataCache.load_hash]
            exact hstored.symm
          · rw [← hdc]
            exact upd_upd_same _ _ _ _
      obtain ⟨sgEq, loadh, gEq, hs⟩ := main
      have ncond : ¬ staleOrForced dc' h0 s.trail false := by
        intro hor
        rcases hor with hne | hf
        · exact hne loadh.symm
        · exact Bool.noConfusion hf
      have hash2 : s.hash dc'.step_graph = some h0 := by rw [sgEq, hh]
      refine ⟨hs, sgEq, ⟨h0, hash2, loadh, ncond⟩, ?_⟩
      unfold Step.checkpoint
      rw [hash2]
      simp only [Option.bind_eq_bind, Option.some_bind]
      rw [if_neg ncond]
      simp only [Option.pure_def, Option.some_bind, Option.some.injEq, Prod.mk.injEq]
      exact ⟨by rw [gEq], trivial⟩

/-- Fixture: the cache state after the first checkpoint of the pipeline. -/
def c3dc : DataCache :=
  ((pipe2.2.checkpoint 5 pipe2.1 false).getD (pipe2.1, pipe2.2)).1

/-- C3 witness: the second checkpoint of the chained pipeline leaves the
once-checkpointed cache exactly unchanged. -/
theorem C3_second_checkpoint_witness :
    pipe2.2.checkpoint 7 c3dc false = some (c3dc, pipe2.2)
    ∧ c3dc.step_graph = pipe2.1.step_graph :=
  ⟨(C3_second_checkpoint 5 7 pipe2.2 pipe2.1 c3dc pipe2.2 rfl).2.2.2,
   (C3_second_checkpoint 5 7 pipe2.2 pipe2.1 c3dc pipe2.2 rfl).2.1⟩

/-! Machinery for C2: the hash structure and its upstream sensitivity. -/

/-- Concatenation of a list of strings (Python `''.join`). -/
def concatStr (l : List String) : String := l.foldr (· ++ ·) ""

theorem concatStr_append (a b : List String) :
    concatStr (a ++ b) = concatStr a ++ concatStr b := by
  induction a with
  | nil => simp [concatStr]
  | cons h t ih =>
      show h ++ concatStr (t ++ b) = (h ++ concatStr t) ++ concatStr b
      rw [ih, String.append_assoc]

/-- The registration invariant maintained by `Step.__init__`: every
`step_graph` entry is keyed by its step's own trail. -/
def WFsg (sg : List (Val × Step)) : Prop :=
  ∀ t s, lookupA sg t = some s → s.trail = t

theorem node_hash_step (sg : List (Val × Step)) (hwf : WFsg sg) (t : Val) (p : Step)
    (hlk : lookupA sg t = some p) : hashGo sg true t = p.hash sg := by
  have ht := hwf t p hlk
  cases t with
  | call f a k =>
      simp only [hashGo, hlk, Step.hash, ht]
      cases hashGo sg false a <;> cases hashGo sg false k <;> simp
  | lit n => simp [hashGo, hlk, Step.hash, ht]
  | vnil => simp [hashGo, hlk, Step.hash, ht]
  | vcons v vs => simp [hashGo, hlk, Step.hash, ht]
  | kv key w => simp [hashGo, hlk, Step.hash, ht]

theorem hashGo_cons_call (sg : List (Val × Step)) (f' : String) (a' k' vs : Val) :
    hashGo sg false (Val.vcons (Val.call f' a' k') vs) =
      (match hashGo sg true (Val.call f' a' k'), hashGo sg false vs with
       | some h, some r => some (h ++ r)
       | _, _ => none) := rfl

theorem hashGo_cons_kv (sg : List (Val × Step)) (key : String) (w vs : Val)
    (hw : w.isCall = true) :
    hashGo sg false (Val.vcons (Val.kv key w) vs) =
      (match hashGo sg true w, hashGo sg false vs with
       | some h, some r => some (h ++ r)
       | _, _ => none) := by
  simp only [hashGo, hw, if_true]

theorem spine_hash (sg : List (Val × Step)) (hwf : WFsg sg) :
    ∀ (sp : Val) (l : List Step), prevSpine sg sp = some l →
    ∀ hs : List String, l.mapM (fun p => p.hash sg) = some hs →
    hashGo sg false sp = some (concatStr hs) := by
  intro sp
  induction sp with
  | vcons v vs ih_v ih_vs =>
      cases v with
      | kv key w =>
          by_cases hw : w.isCall
          · intro l hl hs hmap
            simp only [prevSpine, hw, if_true] at hl
            cases hlk : lookupA sg w with
            | none => rw [hlk] at hl; exact Option.noConfusion hl
            | some p =>
                rw [hlk] at hl
                cases hpv : prevSpine sg vs with
                | none => rw [hpv] at hl; exact Option.noConfusion hl
                | some r =>
                    rw [hpv] at hl
                    obtain rfl : p :: r = l := by injection hl
                    rw [List.mapM_cons] at hmap
                    cases hph : p.hash sg with
                    | none => rw [hph] at hmap; exact Option.noConfusion hmap
                    | some h1 =>
                        rw [hph] at hmap
                        cases hmr : r.mapM (fun p => p.hash sg) with
                        | none => rw [hmr] at hmap; simp at hmap
                        | some hs2 =>
                            rw [hmr] at hmap
                            simp only [Option.bind_eq_bind, Option.pure_def,
                              Option.some_bind, Option.some.injEq] at hmap
                            subst hmap
                            rw [hashGo_cons_kv sg key w vs hw,
                              node_hash_step sg hwf w p hlk, hph,
                              ih_vs r hpv hs2 hmr]
                            rfl
          · intro l hl hs hmap
            simp only [prevSpine, hw, if_false] at hl
            simp only [hashGo, hw, if_false]
            exact ih_vs l hl hs hmap
      | call f' a' k' =>
          intro l hl hs hmap
          simp only [prevSpine, Val.isCall, if_true] at hl
          cases hlk : lookupA sg (Val.call f' a' k') with
          | none => rw [hlk] at hl; exact Option.noConfusion hl
          | some p =>
              rw [hlk] at hl
              cases hpv : prevSpine sg vs with
              | none => rw [hpv] at hl; exact Option.noConfusion hl
              | some r =>
                  rw [hpv] at hl
                  obtain rfl : p :: r = l := by injection hl
                  rw [List.mapM_cons] at hmap
                  cases hph : p.hash sg with
                  | none => rw [hph] at hmap; exact Option.noConfusion hmap
                  | some h1 =>
                      rw [hph] at hmap
                      cases hmr : r.mapM (fun p => p.hash sg) with
                      | none => rw [hmr] at hmap; simp at hmap
                      | some hs2 =>
                          rw [hmr] at hmap
                          simp only [Option.bind_eq_bind, Option.pure_def,
                            Option.some_bind, Option.some.injEq] at hmap
                          subst hmap
                          rw [hashGo_cons_call sg f' a' k' vs,
                            node_hash_step sg hwf _ p hlk, hph,
                            ih_vs r hpv hs2 hmr]
                          rfl
      | lit n =>
          intro l hl hs hmap
          simp only [prevSpine, Val.isCall, if_false] at hl
          simp only [hashGo, Val.isCall, if_false]
          exact ih_vs l hl hs hmap
      | vnil =>
          intro l hl hs hmap
          simp only [prevSpine, Val.isCall, if_false] at hl
          simp only [hashGo, Val.isCall, if_false]
          exact ih_vs l hl hs hmap
      | vcons a b =>
          intro l hl hs hmap
          simp only [prevSpine, Val.isCall, if_false] at hl
          simp only [hashGo, Val.isCall, if_false]
          exact ih_vs l hl hs hmap
  | lit n =>
      intro l hl hs hmap
      simp only [prevSpine, Option.some.injEq] at hl
      subst hl
      simp only [List.mapM_nil, Option.pure_def, Option.some.injEq] at hmap
      subst hmap
      rfl
  | call f a k _ _ =>
      intro l hl hs hmap
      simp only [prevSpine, Option.some.injEq] at hl
      subst hl
      simp only [List.mapM_nil, Option.pure_def, Option.some.injEq] at hmap
      subst hmap
      rfl
  | vnil =>
      intro l hl hs hmap
      simp only [prevSpine, Option.some.injEq] at hl
      subst hl
      simp only [List.mapM_nil, Option.pure_def, Option.some.injEq] at hmap
      subst hmap
      rfl
  | kv key w _ =>
      intro l hl hs hmap
      simp only [prevSpine, Option.some.injEq] at hl
      subst hl
      simp only [List.mapM_nil, Option.pure_def, Option.some.injEq] at hmap
      subst hmap
      rfl

theorem noCall_spineDeps (sp : Val) (h : spineHasCall sp = false) : spineDeps sp = [] := by
  induction sp with
  | vcons v vs ih_v ih_vs =>
      cases v with
      | kv key w =>
          simp only [spineHasCall, Bool.or_eq_false_iff] at h
          simp [spineDeps, h.1, ih_vs h.2]
      | call f a k => simp [spineHasCall, Val.isCall] at h
      | lit n =>
          simp only [spineHasCall, Bool.or_eq_false_iff] at h
          simp [spineDeps, Val.isCall, ih_vs h.2]
      | vnil =>
          simp only [spineHasCall, Bool.or_eq_false_iff] at h
          simp [spineDeps, Val.isCall, ih_vs h.2]
      | vcons a b =>
          simp only [spineHasCall, Bool.or_eq_false_iff] at h
          simp [spineDeps, Val.isCall, ih_vs h.2]
  | lit n => rfl
  | call f a k _ _ => rfl
  | vnil => rfl
  | kv key w _ => rfl

theorem C2a_aux (sg : List (Val × Step)) (s : Step) (prev : List Step) (hs : List String)
    (hwf : WFsg sg) (hprev : s.previous sg = some prev)
    (hmap : prev.mapM (fun p => p.hash sg) = some hs) :
    s.hash sg = some (concatStr hs ++ uniqDigest s) := by
  match ht : s.trail with
  | .call f a k =>
      simp only [Step.previous, ht] at hprev
      cases hxs : prevSpine sg a with
      | none => rw [hxs] at hprev; simp at hprev
      | some xs =>
          rw [hxs] at hprev
          cases hys : prevSpine sg k with
          | none => rw [hys] at hprev; simp at hprev
          | some ys =>
              rw [hys] at hprev
              simp only [Option.bind_eq_bind, Option.pure_def, Option.some_bind,
                Option.some.injEq] at hprev
              subst hprev
              rw [List.mapM_append] at hmap
              cases h1 : xs.mapM (fun p => p.hash sg) with
              | none => rw [h1] at hmap; simp at hmap
              | some hs1 =>
                  rw [h1] at hmap
                  cases h2 : ys.mapM (fun p => p.hash sg) with
                  | none => rw [h2] at hmap; simp at hmap
                  | some hs2 =>
                      rw [h2] at hmap
                      simp only [Option.bind_eq_bind, Option.pure_def, Option.some_bind,
                        Option.some.injEq] at hmap
                      subst hmap
                      simp only [Step.hash, ht]
                      rw [spine_hash sg hwf a xs hxs hs1 h1,
                        spine_hash sg hwf k ys hys hs2 h2]
                      simp only [Option.bind_eq_bind, Option.pure_def, Option.some_bind,
                        Option.some.injEq]
                      by_cases hd : s.has_deps
                      · simp only [hd, if_true, concatStr_append]
                      · have hd0 : Step.has_deps s = false := Bool.eq_false_iff.mpr hd
                        have hd' : spineHasCall a = false ∧ spineHasCall k = false := by
                          simpa only [Step.has_deps, ht, Bool.or_eq_false_iff] using hd0
                        have ha0 : xs = [] := by
                          have hax := hxs
                          rw [prevSpine_eq, noCall_spineDeps a hd'.1,
                            show List.mapM (lookupA sg) ([] : List Val) = some []
                              from rfl] at hax
                          injection hax with hx
                          exact hx.symm
                        have hk0 : ys = [] := by
                          have hkx := hys
                          rw [prevSpine_eq, noCall_spineDeps k hd'.2,
                            show List.mapM (lookupA sg) ([] : List Val) = some []
                              from rfl] at hkx
                          injection hkx with hx
                          exact hx.symm
                        subst ha0
                        subst hk0
                        have hh1 : hs1 = [] := by
                          rw [show List.mapM (fun p => Step.hash p sg) ([] : List Step)
                              = some [] from rfl] at h1
                          injection h1 with hx
                          exact hx.symm
                        have hh2 : hs2 = [] := by
                          rw [show List.mapM (fun p => Step.hash p sg) ([] : List Step)
                              = some [] from rfl] at h2
                          injection h2 with hx
                          exact hx.symm
                        subst hh1
                        subst hh2
                        simp [hd0, concatStr]
  | .lit n =>
      simp only [Step.previous, ht, Option.some.injEq] at hprev
      subst hprev
      simp only [List.mapM_nil, Option.pure_def, Option.some.injEq] at hmap
      subst hmap
      simp only [Step.hash, ht, concatStr]
      simp
  | .vnil =>
      simp only [Step.previous, ht, Option.some.injEq] at hprev
      subst hprev
      simp only [List.mapM_nil, Option.pure_def, Option.some.injEq] at hmap
      subst hmap
      simp only [Step.hash, ht, concatStr]
      simp
  | .vcons a b =>
      simp only [Step.previous, ht, Option.some.injEq] at hprev
      subst hprev
      simp only [List.mapM_nil, Option.pure_def, Option.some.injEq] at hmap
      subst hmap
      simp only [Step.hash, ht, concatStr]
      simp
  | .kv key w =>
      simp only [Step.previous, ht, Option.some.injEq] at hprev
      subst hprev
      simp only [List.mapM_nil, Option.pure_def, Option.some.injEq] at hmap
      subst hmap
      simp only [Step.hash, ht, concatStr]
      simp

theorem val_strong {P : Val → Prop}
    (h : ∀ t, (∀ u : Val, sizeOf u < sizeOf t → P u) → P t) (t : Val) : P t := by
  generalize hn : sizeOf t = n
  induction n using Nat.strong_induction_on generalizing t with
  | _ n ih =>
      subst hn
      exact h t (fun u hu => ih (sizeOf u) hu u rfl)

theorem sizeOf_spineDeps {c sp : Val} (h : c ∈ spineDeps sp) : sizeOf c < sizeOf sp := by
  induction sp with
  | vcons v vs ih_v ih_vs =>
      have hvs : sizeOf vs < sizeOf (Val.vcons v vs) := by simp <;> omega
      cases v with
      | kv key w =>
          by_cases hw : w.isCall
          · simp only [spineDeps, hw, if_true, List.mem_cons] at h
            rcases h with rfl | h
            · simp <;> omega
            · exact lt_trans (ih_vs h) hvs
          · simp only [spineDeps, hw, if_false] at h
            exact lt_trans (ih_vs h) hvs
      | call f a k =>
          simp only [spineDeps, Val.isCall, if_true, List.mem_cons] at h
          rcases h with rfl | h
          · simp <;> omega
          · exact lt_trans (ih_vs h) hvs
      | lit n =>
          simp only [spineDeps, Val.isCall, if_false] at h
          exact lt_trans (ih_vs h) hvs
      | vnil =>
          simp only [spineDeps, Val.isCall, if_false] at h
          exact lt_trans (ih_vs h) hvs
      | vcons a b =>
          simp only [spineDeps, Val.isCall, if_false] at h
          exact lt_trans (ih_vs h) hvs
  | lit n => simp [spineDeps] at h
  | call f a k _ _ => simp [spineDeps] at h
  | vnil => simp [spineDeps] at h
  | kv key w _ => simp [spineDeps] at h

theorem sizeOf_depCalls {c t : Val} (h : c ∈ depCalls t) : sizeOf c < sizeOf t := by
  cases t with
  | call f a k =>
      simp only [depCalls, List.mem_append] at h
      rcases h with h | h
      · exact lt_trans (sizeOf_spineDeps h) (by simp <;> omega)
      · exact lt_trans (sizeOf_spineDeps h) (by simp <;> omega)
  | lit n => simp [depCalls] at h
  | vnil => simp [depCalls] at h
  | vcons a b => simp [depCalls] at h
  | kv key w => simp [depCalls] at h

/-- The strict "is an upstream dependency of" relation along the trail
graph: a direct dependency reference, or one reachable through a direct
dependency. -/
inductive Upstream : Val → Val → Prop where
  | direct {u t : Val} : u ∈ depCalls t → Upstream u t
  | trans {u d t : Val} : d ∈ depCalls t → Upstream u d → Upstream u t

theorem Upstream.sizeOf_lt {u t : Val} (h : Upstream u t) : sizeOf u < sizeOf t := by
  induction h with
  | direct hm => exact sizeOf_depCalls hm
  | trans hm _ ih => exact lt_trans ih (sizeOf_depCalls hm)

/-- The registries `sg` and `sg'` describe the same pipeline except that
the target function registered at trail `u` changed implementation: same
trail, arguments and function name, different compiled code. -/
def ChangedImplAt (sg sg' : List (Val × Step)) (u : Val) : Prop :=
  (∀ c, c ≠ u → lookupA sg' c = lookupA sg c)
  ∧ ∃ s s', lookupA sg u = some s ∧ lookupA sg' u = some s'
      ∧ s'.trail = s.trail ∧ s'.args = s.args ∧ s'.kwargs = s.kwargs
      ∧ s'.target.name = s.target.name
      ∧ ¬(s'.target.co_code = s.target.co_code ∧ s'.target.co_consts = s.target.co_consts)

/-! Character-level facts about the digest serialization, giving the
digest's injectivity in the compiled-code components. -/

theorem append_sep_inj (c : Char) :
    ∀ (a b x y : List Char), c ∉ a → c ∉ b → a ++ c :: x = b ++ c :: y →
    a = b ∧ x = y := by
  intro a
  induction a with
  | nil =>
      intro b x y _ hb heq
      cases b with
      | nil => simpa using heq
      | cons bh bt =>
          simp only [List.nil_append, List.cons_append, List.cons.injEq] at heq
          exact absurd (heq.1 ▸ List.mem_cons_self bh bt) hb
  | cons ah at' ih =>
      intro b x y ha hb heq
      cases b with
      | nil =>
          simp only [List.nil_append, List.cons_append, List.cons.injEq] at heq
          exact absurd (heq.1 ▸ List.mem_cons_self ah at') ha
      | cons bh bt =>
          simp only [List.cons_append, List.cons.injEq] at heq
          have := ih bt x y (fun hm => ha (List.mem_cons_of_mem _ hm))
            (fun hm => hb (List.mem_cons_of_mem _ hm)) heq.2
          exact ⟨by rw [heq.1, this.1], this.2⟩

theorem mem_replicate_o {c : Char} {n : Nat} (h : c ∈ List.replicate n 'o') : c = 'o' :=
  (List.eq_of_mem_replicate h)

theorem comma_not_mem_repl (n : Nat) : ',' ∉ List.replicate n 'o' := by
  intro h
  exact absurd (mem_replicate_o h) (by decide)

theorem encNatList_sep_free (ns : List Nat) (c : Char) (h : c ∈ encNatList ns) :
    c = 'o' ∨ c = ',' := by
  simp only [encNatList, List.mem_flatten] at h
  obtain ⟨l, hl, hc⟩ := h
  simp only [List.mem_map] at hl
  obtain ⟨n, _, rfl⟩ := hl
  rcases List.mem_append.mp hc with h | h
  · exact Or.inl (mem_replicate_o h)
  · simp only [List.mem_singleton] at h
    exact Or.inr h

theorem encIntU_sep_free (n : Int) (c : Char) (h : c ∈ encIntU n) :
    c = 'o' ∨ c = 'm' ∨ c = 'p' := by
  simp only [encIntU] at h
  rcases List.mem_append.mp h with h | h
  · split at h <;> simp only [List.mem_singleton] at h <;> simp [h]
  · exact Or.inl (mem_replicate_o h)

theorem encIntList_sep_free (ns : List Int) (c : Char) (h : c ∈ encIntList ns) :
    c = 'o' ∨ c = ',' ∨ c = 'm' ∨ c = 'p' := by
  simp only [encIntList, List.mem_flatten] at h
  obtain ⟨l, hl, hc⟩ := h
  simp only [List.mem_map] at hl
  obtain ⟨n, _, rfl⟩ := hl
  rcases List.mem_append.mp hc with h | h
  · rcases encIntU_sep_free n c h with h | h | h <;> simp [h]
  · simp only [List.mem_singleton] at h
    simp [h]

theorem encNatList_inj : ∀ a b : List Nat, encNatList a = encNatList b → a = b := by
  intro a
  induction a with
  | nil =>
      intro b h
      cases b with
      | nil => rfl
      | cons m ms =>
          simp only [encNatList, List.map_nil, List.flatten_nil, List.map_cons,
            List.flatten_cons] at h
          exact absurd h.symm (by simp)
  | cons n ns ih =>
      intro b h
      cases b with
      | nil =>
          simp only [encNatList, List.map_nil, List.flatten_nil, List.map_cons,
            List.flatten_cons] at h
          exact absurd h (by simp)
      | cons m ms =>
          simp only [encNatList, List.map_cons, List.flatten_cons, List.append_assoc,
            List.singleton_append] at h
          have := append_sep_inj ',' _ _ _ _ (comma_not_mem_repl n) (comma_not_mem_repl m) h
          have hn : n = m := by
            have := congrArg List.length this.1
            simpa using this
          have hns : ns = ms := ih ms (by
            simpa [encNatList] using this.2)
          rw [hn, hns]

theorem encIntU_inj : ∀ a b : Int, encIntU a = encIntU b → a = b := by
  intro a b h
  simp only [encIntU] at h
  by_cases ha : a < 0 <;> by_cases hb : b < 0 <;> simp only [ha, hb, if_true, if_false] at h
  · have hlen := congrArg List.length h
    simp at hlen
    omega
  · exact absurd (List.head_eq_of_cons_eq h) (by decide)
  · exact absurd (List.head_eq_of_cons_eq h) (by decide)
  · have hlen := congrArg List.length h
    simp at hlen
    omega

theorem comma_not_mem_encIntU (n : Int) : ',' ∉ encIntU n := by
  intro h
  rcases encIntU_sep_free n ',' h with h | h | h <;> exact absurd h (by decide)

theorem encIntList_inj : ∀ a b : List Int, encIntList a = encIntList b → a = b := by
  intro a
  induction a with
  | nil =>
      intro b h
      cases b with
      | nil => rfl
      | cons m ms =>
          simp only [encIntList, List.map_nil, List.flatten_nil, List.map_cons,
            List.flatten_cons, encIntU] at h
          split at h <;> exact absurd h.symm (by simp)
  | cons n ns ih =>
      intro b h
      cases b with
      | nil =>
          simp only [encIntList, List.map_nil, List.flatten_nil, List.map_cons,
            List.flatten_cons, encIntU] at h
          split at h <;> exact absurd h (by simp)
      | cons m ms =>
          simp only [encIntList, List.map_cons, List.flatten_cons, List.append_assoc,
            List.singleton_append] at h
          have := append_sep_inj ',' _ _ _ _ (comma_not_mem_encIntU n)
            (comma_not_mem_encIntU m) h
          have hn : n = m := encIntU_inj n m this.1
          have hns : ns = ms := ih ms (by simpa [encIntList] using this.2)
          rw [hn, hns]

theorem filter_no_hash {l : List Char} (h : ∀ c ∈ l, c ≠ '#') :
    l.filter notHash = l :=
  List.filter_eq_self.mpr (fun c hc => by simp [notHash, h c hc])

theorem filter_notHash_dot_cons (l : List Char) :
    ('.' :: l).filter notHash = '.' :: l.filter notHash := by
  simp [List.filter_cons, notHash]

theorem dot_not_mem_encNatList (ns : List Nat) : '.' ∉ encNatList ns := by
  intro h
  rcases encNatList_sep_free ns '.' h with h | h <;> exact absurd h (by decide)

theorem hash_not_mem_encNatList (ns : List Nat) : ∀ c ∈ encNatList ns, c ≠ '#' := by
  intro c hc
  rcases encNatList_sep_free ns c hc with h | h <;> simp [h]

theorem hash_not_mem_encIntList (ns : List Int) : ∀ c ∈ encIntList ns, c ≠ '#' := by
  intro c hc
  rcases encIntList_sep_free ns c hc with h | h | h | h <;> simp [h]

/-- The digest is injective in the compiled-code components: two steps with
equal trail, args and kwargs but different compiled code have different
digests. -/
theorem uniqDigest_ne (s s' : Step) (ht : s'.trail = s.trail) (ha : s'.args = s.args)
    (hk : s'.kwargs = s.kwargs)
    (hne : ¬(s'.target.co_code = s.target.co_code
      ∧ s'.target.co_consts = s.target.co_consts)) :
    uniqDigest s' ≠ uniqDigest s := by
  intro he
  have hd := congrArg String.data he
  simp only [uniqDigest] at hd
  have hd2 : ((digestBody s').filter notHash) = ((digestBody s).filter notHash) :=
    ((List.cons.injEq _ _ _ _).mp hd).2
  simp only [digestBody, ht, ha, hk] at hd2
  simp only [List.filter_append, filter_notHash_dot_cons] at hd2
  simp only [List.append_assoc, List.cons_append] at hd2
  have h1 := List.append_cancel_left hd2
  have h2 := ((List.cons.injEq _ _ _ _).mp h1).2
  have h3 := List.append_cancel_left h2
  have h4 := ((List.cons.injEq _ _ _ _).mp h3).2
  have h5 := List.append_cancel_left h4
  have h6 := ((List.cons.injEq _ _ _ _).mp h5).2
  rw [filter_no_hash (hash_not_mem_encNatList s'.target.co_code),
    filter_no_hash (hash_not_mem_encNatList s.target.co_code),
    filter_no_hash (hash_not_mem_encIntList s'.target.co_consts),
    filter_no_hash (hash_not_mem_encIntList s.target.co_consts)] at h6
  have hsplit := append_sep_inj '.' _ _ _ _
    (dot_not_mem_encNatList s'.target.co_code)
    (dot_not_mem_encNatList s.target.co_code) h6
  exact hne ⟨encNatList_inj _ _ hsplit.1, encIntList_inj _ _ hsplit.2⟩

/-- A digest block: a `#`-tagged chunk whose body is `#`-free. -/
def IsBlock (l : List Char) : Prop := ∃ body, l = '#' :: body ∧ '#' ∉ body

theorem uniqDigest_isBlock (s : Step) : IsBlock (uniqDigest s).data := by
  refine ⟨(digestBody s).filter notHash, rfl, ?_⟩
  intro hmem
  have := List.of_mem_filter hmem
  simp [notHash] at this

theorem flat_of_blocks (bs : List (List Char)) (h : ∀ b ∈ bs, IsBlock b) :
    bs.flatten = [] ∨ ∃ u, bs.flatten = '#' :: u := by
  induction bs with
  | nil => exact Or.inl rfl
  | cons b rest _ =>
      obtain ⟨body, rfl, _⟩ := h b (List.mem_cons_self b rest)
      exact Or.inr ⟨body ++ rest.flatten, by simp⟩

theorem split_noSep :
    ∀ (x y s t : List Char), '#' ∉ x → '#' ∉ y →
    (s = [] ∨ ∃ u, s = '#' :: u) → (t = [] ∨ ∃ u, t = '#' :: u) →
    x ++ s = y ++ t → x = y ∧ s = t := by
  intro x
  induction x with
  | nil =>
      intro y s t _ hy hs _ heq
      cases y with
      | nil => simpa using heq
      | cons yh yt =>
          exfalso
          simp only [List.nil_append, List.cons_append] at heq
          rcases hs with rfl | ⟨u, rfl⟩
          · simp at heq
          · have : yh = '#' := by
              simpa using (congrArg (fun l => l.headD ' ') heq).symm
            exact hy (this ▸ List.mem_cons_self yh yt)
  | cons xh xt ih =>
      intro y s t hx hy hs ht heq
      cases y with
      | nil =>
          exfalso
          simp only [List.nil_append, List.cons_append] at heq
          rcases ht with rfl | ⟨u, rfl⟩
          · simp at heq
          · have : xh = '#' := by
              simpa using congrArg (fun l => l.headD ' ') heq
            exact hx (this ▸ List.mem_cons_self xh xt)
      | cons yh yt =>
          simp only [List.cons_append, List.cons.injEq] at heq
          have := ih yt s t (fun hm => hx (List.mem_cons_of_mem _ hm))
            (fun hm => hy (List.mem_cons_of_mem _ hm)) hs ht heq.2
          exact ⟨by rw [heq.1, this.1], this.2⟩

theorem blocks_flatten_inj :
    ∀ (bs1 bs2 : List (List Char)), (∀ b ∈ bs1, IsBlock b) → (∀ b ∈ bs2, IsBlock b) →
    bs1.flatten = bs2.flatten → bs1 = bs2 := by
  intro bs1
  induction bs1 with
  | nil =>
      intro bs2 _ h2 he
      cases bs2 with
      | nil => rfl
      | cons b rest =>
          exfalso
          obtain ⟨body, rfl, _⟩ := h2 b (List.mem_cons_self b rest)
          simp at he
  | cons b1 rest1 ih =>
      intro bs2 h1 h2 he
      cases bs2 with
      | nil =>
          exfalso
          obtain ⟨body, rfl, _⟩ := h1 b1 (List.mem_cons_self b1 rest1)
          simp at he
      | cons b2 rest2 =>
          obtain ⟨body1, rfl, hb1⟩ := h1 b1 (List.mem_cons_self b1 rest1)
          obtain ⟨body2, rfl, hb2⟩ := h2 b2 (List.mem_cons_self b2 rest2)
          simp only [List.flatten_cons, List.cons_append, List.cons.injEq,
            true_and] at he
          have hsp := split_noSep body1 body2 rest1.flatten rest2.flatten hb1 hb2
            (flat_of_blocks rest1 (fun b hb => h1 b (List.mem_cons_of_mem _ hb)))
            (flat_of_blocks rest2 (fun b hb => h2 b (List.mem_cons_of_mem _ hb))) he
          have := ih rest2 (fun b hb => h1 b (List.mem_cons_of_mem _ hb))
            (fun b hb => h2 b (List.mem_cons_of_mem _ hb)) hsp.2
          rw [hsp.1, this]

theorem data_map_inj :
    ∀ (a b : List String), a.map String.data = b.map String.data → a = b := by
  intro a
  induction a with
  | nil =>
      intro b h
      cases b with
      | nil => rfl
      | cons _ _ => simp at h
  | cons x xs ih =>
      intro b h
      cases b with
      | nil => simp at h
      | cons y ys =>
          simp only [List.map_cons, List.cons.injEq] at h
          rw [String.ext h.1, ih ys h.2]

theorem concatStr_data (l : List String) :
    (concatStr l).data = (l.map String.data).flatten := by
  induction l with
  | nil => rfl
  | cons x xs ih =>
      show (x ++ concatStr xs).data = (String.data x :: (xs.map String.data)).flatten
      rw [String.data_append, ih]
      simp

/-- The list of digests concatenated by `Step.hash`, in concatenation
order: node mode (`true`) yields the blocks of `step_graph[t].hash()`
(dependency blocks, left to right, then the node's own digest); spine mode
(`false`) the blocks contributed by a spine's `Call`-valued entries. -/
def blocksGo (sg : List (Val × Step)) : Bool → Val → Option (List String)
  | true, Val.call f a k =>
      match lookupA sg (Val.call f a k), blocksGo sg false a, blocksGo sg false k with
      | some s, some pa, some pk => some (pa ++ pk ++ [uniqDigest s])
      | _, _, _ => none
  | true, t => (lookupA sg t).map (fun s => [uniqDigest s])
  | false, Val.vcons (Val.kv _ w) vs =>
      if w.isCall then
        match blocksGo sg true w, blocksGo sg false vs with
        | some h, some r => some (h ++ r)
        | _, _ => none
      else blocksGo sg false vs
  | false, Val.vcons v vs =>
      if v.isCall then
        match blocksGo sg true v, blocksGo sg false vs with
        | some h, some r => some (h ++ r)
        | _, _ => none
      else blocksGo sg false vs
  | false, _ => some []

theorem blocksGo_node_call (sg : List (Val × Step)) (f : String) (a k : Val) :
    blocksGo sg true (Val.call f a k) =
      (match lookupA sg (Val.call f a k), blocksGo sg false a, blocksGo sg false k with
       | some s, some pa, some pk => some (pa ++ pk ++ [uniqDigest s])
       | _, _, _ => none) := rfl

theorem blocksGo_cons_call (sg : List (Val × Step)) (f : String) (a k vs : Val) :
    blocksGo sg false (Val.vcons (Val.call f a k) vs) =
      (match blocksGo sg true (Val.call f a k), blocksGo sg false vs with
       | some h, some r => some (h ++ r)
       | _, _ => none) := rfl

theorem blocksGo_cons_kv (sg : List (Val × Step)) (key : String) (w vs : Val)
    (hw : w.isCall = true) :
    blocksGo sg false (Val.vcons (Val.kv key w) vs) =
      (match blocksGo sg true w, blocksGo sg false vs with
       | some h, some r => some (h ++ r)
       | _, _ => none) := by
  simp only [blocksGo, hw, if_true]

theorem blocksGo_cons_kv_skip (sg : List (Val × Step)) (key : String) (w vs : Val)
    (hw : w.isCall = false) :
    blocksGo sg false (Val.vcons (Val.kv key w) vs) = blocksGo sg false vs := by
  simp only [blocksGo, hw]
  rfl

theorem hashGo_node_call (sg : List (Val × Step)) (f : String) (a k : Val) :
    hashGo sg true (Val.call f a k) =
      (match lookupA sg (Val.call f a k) with
       | none => none
       | some s =>
         match hashGo sg false a, hashGo sg false k with
         | some pa, some pk => some ((if s.has_deps then pa ++ pk else "") ++ uniqDigest s)
         | _, _ => none) := rfl

theorem hashGo_cons_kv_skip (sg : List (Val × Step)) (key : String) (w vs : Val)
    (hw : w.isCall = false) :
    hashGo sg false (Val.vcons (Val.kv key w) vs) = hashGo sg false vs := by
  simp only [hashGo, hw]
  rfl

/-- The number of blocks is determined by the trail structure alone (it
does not depend on the registered targets). -/
theorem blocks_length (sg sg' : List (Val × Step)) : ∀ t : Val, ∀ (mode : Bool)
    (bs bs' : List String), blocksGo sg mode t = some bs →
    blocksGo sg' mode t = some bs' → bs.length = bs'.length := by
  intro t0
  induction t0 using val_strong with
  | _ t ih =>
      intro mode bs bs' hb hb'
      match mode, t with
      | true, Val.call f a k =>
          rw [blocksGo_node_call] at hb hb'
          cases hlk : lookupA sg (Val.call f a k) with
          | none => rw [hlk] at hb; exact Option.noConfusion hb
          | some s =>
          cases hpa : blocksGo sg false a with
          | none => rw [hlk, hpa] at hb; exact Option.noConfusion hb
          | some pa =>
          cases hpk : blocksGo sg false k with
          | none => rw [hlk, hpa, hpk] at hb; exact Option.noConfusion hb
          | some pk =>
          cases hlk' : lookupA sg' (Val.call f a k) with
          | none => rw [hlk'] at hb'; exact Option.noConfusion hb'
          | some s' =>
          cases hpa' : blocksGo sg' false a with
          | none => rw [hlk', hpa'] at hb'; exact Option.noConfusion hb'
          | some pa' =>
          cases hpk' : blocksGo sg' false k with
          | none => rw [hlk', hpa', hpk'] at hb'; exact Option.noConfusion hb'
          | some pk' =>
          rw [hlk, hpa, hpk] at hb
          rw [hlk', hpa', hpk'] at hb'
          injection hb with hb
          injection hb' with hb'
          subst hb
          subst hb'
          have h1 := ih a (by simp <;> omega) false pa pa' hpa hpa'
          have h2 := ih k (by simp <;> omega) false pk pk' hpk hpk'
          simp [h1, h2]
      | true, Val.lit n =>
          simp only [blocksGo] at hb hb'
          cases hlk : lookupA sg (Val.lit n) with
          | none => rw [hlk] at hb; exact Option.noConfusion hb
          | some s =>
          cases hlk' : lookupA sg' (Val.lit n) with
          | none => rw [hlk'] at hb'; exact Option.noConfusion hb'
          | some s' =>
          rw [hlk] at hb; rw [hlk'] at hb'
          injection hb with hb
          injection hb' with hb'
          subst hb; subst hb'
          rfl
      | true, Val.vnil =>
          simp only [blocksGo] at hb hb'
          cases hlk : lookupA sg Val.vnil with
          | none => rw [hlk] at hb; exact Option.noConfusion hb
          | some s =>
          cases hlk' : lookupA sg' Val.vnil with
          | none => rw [hlk'] at hb'; exact Option.noConfusion hb'
          | some s' =>
          rw [hlk] at hb; rw [hlk'] at hb'
          injection hb with hb
          injection hb' with hb'
          subst hb; subst hb'
          rfl
      | true, Val.vcons v vs =>
          simp only [blocksGo] at hb hb'
          cases hlk : lookupA sg (Val.vcons v vs) with
          | none => rw [hlk] at hb; exact Option.noConfusion hb
          | some s =>
          cases hlk' : lookupA sg' (Val.vcons v vs) with
          | none => rw [hlk'] at hb'; exact Option.noConfusion hb'
          | some s' =>
          rw [hlk] at hb; rw [hlk'] at hb'
          injection hb with hb
          injection hb' with hb'
          subst hb; subst hb'
          rfl
      | true, Val.kv key w =>
          simp only [blocksGo] at hb hb'
          cases hlk : lookupA sg (Val.kv key w) with
          | none => rw [hlk] at hb; exact Option.noConfusion hb
          | some s =>
          cases hlk' : lookupA sg' (Val.kv key w) with
          | none => rw [hlk'] at hb'; exact Option.noConfusion hb'
          | some s' =>
          rw [hlk] at hb; rw [hlk'] at hb'
          injection hb with hb
          injection hb' with hb'
          subst hb; subst hb'
          rfl
      | false, Val.vcons (Val.kv key w) vs =>
          by_cases hw : w.isCall
          · rw [blocksGo_cons_kv sg key w vs hw] at hb
            rw [blocksGo_cons_kv sg' key w vs hw] at hb'
            cases hw1 : blocksGo sg true w with
            | none => rw [hw1] at hb; exact Option.noConfusion hb
            | some wb =>
            cases hv1 : blocksGo sg false vs with
            | none => rw [hw1, hv1] at hb; exact Option.noConfusion hb
            | some vb =>
            cases hw2 : blocksGo sg' true w with
            | none => rw [hw2] at hb'; exact Option.noConfusion hb'
            | some wb' =>
            cases hv2 : blocksGo sg' false vs with
            | none => rw [hw2, hv2] at hb'; exact Option.noConfusion hb'
            | some vb' =>
            rw [hw1, hv1] at hb
            rw [hw2, hv2] at hb'
            injection hb with hb
            injection hb' with hb'
            subst hb; subst hb'
            have h1 := ih w (by simp <;> omega) true wb wb' hw1 hw2
            have h2 := ih vs (by simp <;> omega) false vb vb' hv1 hv2
            simp [h1, h2]
          · rw [blocksGo_cons_kv_skip sg key w vs (Bool.eq_false_iff.mpr hw)] at hb
            rw [blocksGo_cons_kv_skip sg' key w vs (Bool.eq_false_iff.mpr hw)] at hb'
            exact ih vs (by simp <;> omega) false bs bs' hb hb'
      | false, Val.vcons (Val.call f1 a1 k1) vs =>
          rw [blocksGo_cons_call] at hb hb'
          cases hw1 : blocksGo sg true (Val.call f1 a1 k1) with
          | none => rw [hw1] at hb; exact Option.noConfusion hb
          | some wb =>
          cases hv1 : blocksGo sg false vs with
          | none => rw [hw1, hv1] at hb; exact Option.noConfusion hb
          | some vb =>
          cases hw2 : blocksGo sg' true (Val.call f1 a1 k1) with
          | none => rw [hw2] at hb'; exact Option.noConfusion hb'
          | some wb' =>
          cases hv2 : blocksGo sg' false vs with
          | none => rw [hw2, hv2] at hb'; exact Option.noConfusion hb'
          | some vb' =>
          rw [hw1, hv1] at hb
          rw [hw2, hv2] at hb'
          injection hb with hb
          injection hb' with hb'
          subst hb; subst hb'
          have h1 := ih (Val.call f1 a1 k1) (by simp <;> omega) true wb wb' hw1 hw2
          have h2 := ih vs (by simp <;> omega) false vb vb' hv1 hv2
          simp [h1, h2]
      | false, Val.vcons (Val.lit n) vs =>
          simp only [blocksGo, Val.isCall, if_false] at hb hb'
          exact ih vs (by simp <;> omega) false bs bs' hb hb'
      | false, Val.vcons Val.vnil vs =>
          simp only [blocksGo, Val.isCall, if_false] at hb hb'
          exact ih vs (by simp <;> omega) false bs bs' hb hb'
      | false, Val.vcons (Val.vcons x y) vs =>
          simp only [blocksGo, Val.isCall, if_false] at hb hb'
          exact ih vs (by simp <;> omega) false bs bs' hb hb'
      | false, Val.lit n =>
          simp only [blocksGo] at hb hb'
          injection hb with hb
          injection hb' with hb'
          subst hb; subst hb'
          rfl
      | false, Val.call f a k =>
          simp only [blocksGo] at hb hb'
          injection hb with hb
          injection hb' with hb'
          subst hb; subst hb'
          rfl
      | false, Val.vnil =>
          simp only [blocksGo] at hb hb'
          injection hb with hb
          injection hb' with hb'
          subst hb; subst hb'
          rfl
      | false, Val.kv key w =>
          simp only [blocksGo] at hb hb'
          injection hb with hb
          injection hb' with hb'
          subst hb; subst hb'
          rfl

theorem spine_mem_depCalls {c a k : Val} {f : String}
    (h : c ∈ spineDeps a ∨ c ∈ spineDeps k) : c ∈ depCalls (Val.call f a k) := by
  simp only [depCalls, List.mem_append]
  exact h

/-- Off the changed trail (and everything it is upstream of), the two
registries produce identical block lists. -/
theorem blocks_agree (sg sg' : List (Val × Step)) (u : Val)
    (hagree : ∀ c, c ≠ u → lookupA sg' c = lookupA sg c) :
    ∀ t : Val,
      (¬(u = t ∨ Upstream u t) → blocksGo sg' true t = blocksGo sg true t)
      ∧ ((∀ c ∈ spineDeps t, ¬(u = c ∨ Upstream u c)) →
        blocksGo sg' false t = blocksGo sg false t) := by
  intro t0
  induction t0 using val_strong with
  | _ t ih =>
      constructor
      · intro hnot
        match t with
        | Val.call f a k =>
            have hne : Val.call f a k ≠ u := fun h => hnot (Or.inl h.symm)
            have hsubA : ∀ c ∈ spineDeps a, ¬(u = c ∨ Upstream u c) := by
              intro c hc hor
              refine hnot (Or.inr ?_)
              rcases hor with rfl | hup
              · exact Upstream.direct (spine_mem_depCalls (Or.inl hc))
              · exact Upstream.trans (spine_mem_depCalls (Or.inl hc)) hup
            have hsubK : ∀ c ∈ spineDeps k, ¬(u = c ∨ Upstream u c) := by
              intro c hc hor
              refine hnot (Or.inr ?_)
              rcases hor with rfl | hup
              · exact Upstream.direct (spine_mem_depCalls (Or.inr hc))
              · exact Upstream.trans (spine_mem_depCalls (Or.inr hc)) hup
            rw [blocksGo_node_call, blocksGo_node_call, hagree _ hne,
              (ih a (by simp <;> omega)).2 hsubA, (ih k (by simp <;> omega)).2 hsubK]
        | Val.lit n =>
            have hne : Val.lit n ≠ u := fun h => hnot (Or.inl h.symm)
            simp only [blocksGo, hagree _ hne]
        | Val.vnil =>
            have hne : Val.vnil ≠ u := fun h => hnot (Or.inl h.symm)
            simp only [blocksGo, hagree _ hne]
        | Val.vcons v vs =>
            have hne : Val.vcons v vs ≠ u := fun h => hnot (Or.inl h.symm)
            simp only [blocksGo, hagree _ hne]
        | Val.kv key w =>
            have hne : Val.kv key w ≠ u := fun h => hnot (Or.inl h.symm)
            simp only [blocksGo, hagree _ hne]
      · intro hnot
        match t with
        | Val.vcons (Val.kv key w) vs =>
            by_cases hw : w.isCall
            · have hwmem : w ∈ spineDeps (Val.vcons (Val.kv key w) vs) := by
                simp [spineDeps, hw]
              have hrest : ∀ c ∈ spineDeps vs, ¬(u = c ∨ Upstream u c) := by
                intro c hc
                exact hnot c (by simp [spineDeps, hw, List.mem_cons, hc])
              rw [blocksGo_cons_kv sg key w vs hw, blocksGo_cons_kv sg' key w vs hw,
                (ih w (by simp <;> omega)).1 (hnot w hwmem),
                (ih vs (by simp <;> omega)).2 hrest]
            · have hw' : w.isCall = false := Bool.eq_false_iff.mpr hw
              have hrest : ∀ c ∈ spineDeps vs, ¬(u = c ∨ Upstream u c) := by
                intro c hc
                exact hnot c (by simp [spineDeps, hw', hc])
              rw [blocksGo_cons_kv_skip sg key w vs hw',
                blocksGo_cons_kv_skip sg' key w vs hw',
                (ih vs (by simp <;> omega)).2 hrest]
        | Val.vcons (Val.call f1 a1 k1) vs =>
            have hwmem : Val.call f1 a1 k1 ∈ spineDeps (Val.vcons (Val.call f1 a1 k1) vs) := by
              simp [spineDeps, Val.isCall]
            have hrest : ∀ c ∈ spineDeps vs, ¬(u = c ∨ Upstream u c) := by
              intro c hc
              exact hnot c (by simp [spineDeps, Val.isCall, List.mem_cons, hc])
            rw [blocksGo_cons_call, blocksGo_cons_call,
              (ih (Val.call f1 a1 k1) (by simp <;> omega)).1 (hnot _ hwmem),
              (ih vs (by simp <;> omega)).2 hrest]
        | Val.vcons (Val.lit n) vs =>
            have hrest : ∀ c ∈ spineDeps vs, ¬(u = c ∨ Upstream u c) := by
              intro c hc
              exact hnot c (by simp [spineDeps, Val.isCall, hc])
            simp only [blocksGo, Val.isCall, if_false]
            exact (ih vs (by simp <;> omega)).2 hrest
        | Val.vcons Val.vnil vs =>
            have hrest : ∀ c ∈ spineDeps vs, ¬(u = c ∨ Upstream u c) := by
              intro c hc
              exact hnot c (by simp [spineDeps, Val.isCall, hc])
            simp only [blocksGo, Val.isCall, if_false]
            exact (ih vs (by simp <;> omega)).2 hrest
        | Val.vcons (Val.vcons x y) vs =>
            have hrest : ∀ c ∈ spineDeps vs, ¬(u = c ∨ Upstream u c) := by
              intro c hc
              exact hnot c (by simp [spineDeps, Val.isCall, hc])
            simp only [blocksGo, Val.isCall, if_false]
            exact (ih vs (by simp <;> omega)).2 hrest
        | Val.lit n => rfl
        | Val.call f a k => rfl
        | Val.vnil => rfl
        | Val.kv key w => rfl

theorem noCall_blocksGo (sg : List (Val × Step)) :
    ∀ sp : Val, spineHasCall sp = false → blocksGo sg false sp = some [] := by
  intro sp
  induction sp with
  | vcons v vs ih_v ih_vs =>
      intro h
      cases v with
      | kv key w =>
          simp only [spineHasCall, Bool.or_eq_false_iff] at h
          rw [blocksGo_cons_kv_skip sg key w vs h.1]
          exact ih_vs h.2
      | call f a k => simp [spineHasCall, Val.isCall] at h
      | lit n =>
          simp only [spineHasCall, Bool.or_eq_false_iff] at h
          simp only [blocksGo, Val.isCall, if_false]
          exact ih_vs h.2
      | vnil =>
          simp only [spineHasCall, Bool.or_eq_false_iff] at h
          simp only [blocksGo, Val.isCall, if_false]
          exact ih_vs h.2
      | vcons a b =>
          simp only [spineHasCall, Bool.or_eq_false_iff] at h
          simp only [blocksGo, Val.isCall, if_false]
          exact ih_vs h.2
  | lit n => intro _; rfl
  | call f a k _ _ => intro _; rfl
  | vnil => intro _; rfl
  | kv key w _ => intro _; rfl

theorem blocks_are_blocks (sg : List (Val × Step)) : ∀ t : Val, ∀ (mode : Bool)
    (bs : List String), blocksGo sg mode t = some bs → ∀ b ∈ bs, IsBlock b.data := by
  intro t0
  induction t0 using val_strong with
  | _ t ih =>
      intro mode bs hb b hmem
      match mode, t with
      | true, Val.call f a k =>
          rw [blocksGo_node_call] at hb
          cases hlk : lookupA sg (Val.call f a k) with
          | none => rw [hlk] at hb; exact Option.noConfusion hb
          | some s =>
          cases hpa : blocksGo sg false a with
          | none => rw [hlk, hpa] at hb; exact Option.noConfusion hb
          | some pa =>
          cases hpk : blocksGo sg false k with
          | none => rw [hlk, hpa, hpk] at hb; exact Option.noConfusion hb
          | some pk =>
          rw [hlk, hpa, hpk] at hb
          injection hb with hb
          subst hb
          rcases List.mem_append.mp hmem with hm | hm
          · rcases List.mem_append.mp hm with hm2 | hm2
            · exact ih a (by simp <;> omega) false pa hpa b hm2
            · exact ih k (by simp <;> omega) false pk hpk b hm2
          · simp only [List.mem_singleton] at hm
            subst hm
            exact uniqDigest_isBlock s
      | true, Val.lit n =>
          simp only [blocksGo] at hb
          cases hlk : lookupA sg (Val.lit n) with
          | none => rw [hlk] at hb; exact Option.noConfusion hb
          | some s =>
              rw [hlk] at hb
              injection hb with hb
              subst hb
              simp only [List.mem_singleton] at hmem
              subst hmem
              exact uniqDigest_isBlock s
      | true, Val.vnil =>
          simp only [blocksGo] at hb
          cases hlk : lookupA sg Val.vnil with
          | none => rw [hlk] at hb; exact Option.noConfusion hb
          | some s =>
              rw [hlk] at hb
              injection hb with hb
              subst hb
              simp only [List.mem_singleton] at hmem
              subst hmem
              exact uniqDigest_isBlock s
      | true, Val.vcons v vs =>
          simp only [blocksGo] at hb
          cases hlk : lookupA sg (Val.vcons v vs) with
          | none => rw [hlk] at hb; exact Option.noConfusion hb
          | some s =>
              rw [hlk] at hb
              injection hb with hb
              subst hb
              simp only [List.mem_singleton] at hmem
              subst hmem
              exact uniqDigest_isBlock s
      | true, Val.kv key w =>
          simp only [blocksGo] at hb
          cases hlk : lookupA sg (Val.kv key w) with
          | none => rw [hlk] at hb; exact Option.noConfusion hb
          | some s =>
              rw [hlk] at hb
              injection hb with hb
              subst hb
              simp only [List.mem_singleton] at hmem
              subst hmem
              exact uniqDigest_isBlock s
      | false, Val.vcons (Val.kv key w) vs =>
          by_cases hw : w.isCall
          · rw [blocksGo_cons_kv sg key w vs hw] at hb
            cases hw1 : blocksGo sg true w with
            | none => rw [hw1] at hb; exact Option.noConfusion hb
            | some wb =>
            cases hv1 : blocksGo sg false vs with
            | none => rw [hw1, hv1] at hb; exact Option.noConfusion hb
            | some vb =>
            rw [hw1, hv1] at hb
            injection hb with hb
            subst hb
            rcases List.mem_append.mp hmem with hm | hm
            · exact ih w (by simp <;> omega) true wb hw1 b hm
            · exact ih vs (by simp <;> omega) false vb hv1 b hm
          · rw [blocksGo_cons_kv_skip sg key w vs (Bool.eq_false_iff.mpr hw)] at hb
            exact ih vs (by simp <;> omega) false bs hb b hmem
      | false, Val.vcons (Val.call f1 a1 k1) vs =>
          rw [blocksGo_cons_call] at hb
          cases hw1 : blocksGo sg true (Val.call f1 a1 k1) with
          | none => rw [hw1] at hb; exact Option.noConfusion hb
          | some wb =>
          cases hv1 : blocksGo sg false vs with
          | none => rw [hw1, hv1] at hb; exact Option.noConfusion hb
          | some vb =>
          rw [hw1, hv1] at hb
          injection hb with hb
          subst hb
          rcases List.mem_append.mp hmem with hm | hm
          · exact ih (Val.call f1 a1 k1) (by simp <;> omega) true wb hw1 b hm
          · exact ih vs (by simp <;> omega) false vb hv1 b hm
      | false, Val.vcons (Val.lit n) vs =>
          simp only [blocksGo, Val.isCall, if_false] at hb
          exact ih vs (by simp <;> omega) false bs hb b hmem
      | false, Val.vcons Val.vnil vs =>
          simp only [blocksGo, Val.isCall, if_false] at hb
          exact ih vs (by simp <;> omega) false bs hb b hmem
      | false, Val.vcons (Val.vcons x y) vs =>
          simp only [blocksGo, Val.isCall, if_false] at hb
          exact ih vs (by simp <;> omega) false bs hb b hmem
      | false, Val.lit n =>
          simp only [blocksGo] at hb
          injection hb with hb
          subst hb
          simp at hmem
      | false, Val.call f a k =>
          simp only [blocksGo] at hb
          injection hb with hb
          subst hb
          simp at hmem
      | false, Val.vnil =>
          simp only [blocksGo] at hb
          injection hb with hb
          subst hb
          simp at hmem
      | false, Val.kv key w =>
          simp only [blocksGo] at hb
          injection hb with hb
          subst hb
          simp at hmem

theorem concatStr_singleton (s : String) : concatStr [s] = s := by
  show s ++ "" = s
  simp

/-- Under the registration invariant, a computed hash is exactly the
concatenation of its block list. -/
theorem hash_blocks (sg : List (Val × Step)) (hwf : WFsg sg) : ∀ t : Val,
    ∀ (mode : Bool) (h : String), hashGo sg mode t = some h →
    ∃ bs, blocksGo sg mode t = some bs ∧ h = concatStr bs := by
  intro t0
  induction t0 using val_strong with
  | _ t ih =>
      intro mode h hh
      match mode, t with
      | true, Val.call f a k =>
          rw [hashGo_node_call] at hh
          cases hlk : lookupA sg (Val.call f a k) with
          | none => rw [hlk] at hh; exact Option.noConfusion hh
          | some s =>
          cases hpa : hashGo sg false a with
          | none => rw [hlk, hpa] at hh; exact Option.noConfusion hh
          | some pa =>
          cases hpk : hashGo sg false k with
          | none => rw [hlk, hpa, hpk] at hh; exact Option.noConfusion hh
          | some pk =>
          rw [hlk, hpa, hpk] at hh
          injection hh with hh
          obtain ⟨pab, hpab, hpaeq⟩ := ih a (by simp <;> omega) false pa hpa
          obtain ⟨pkb, hpkb, hpkeq⟩ := ih k (by simp <;> omega) false pk hpk
          refine ⟨pab ++ pkb ++ [uniqDigest s], ?_, ?_⟩
          · rw [blocksGo_node_call, hlk, hpab, hpkb]
          · rw [concatStr_append, concatStr_append, concatStr_singleton]
            by_cases hd : s.has_deps
            · rw [← hh, hd, if_pos rfl, hpaeq, hpkeq, String.append_assoc]
            · have htr : s.trail = Val.call f a k := hwf _ s hlk
              have hd0 : Step.has_deps s = false := Bool.eq_false_iff.mpr hd
              have hd' : spineHasCall a = false ∧ spineHasCall k = false := by
                simpa only [Step.has_deps, htr, Bool.or_eq_false_iff] using hd0
              have hpab0 : pab = [] := by
                have := hpab
                rw [noCall_blocksGo sg a hd'.1] at this
                injection this with hx
                exact hx.symm
              have hpkb0 : pkb = [] := by
                have := hpkb
                rw [noCall_blocksGo sg k hd'.2] at this
                injection this with hx
                exact hx.symm
              subst hpab0
              subst hpkb0
              rw [← hh, hd0]
              simp [concatStr]
      | true, Val.lit n =>
          simp only [hashGo] at hh
          cases hlk : lookupA sg (Val.lit n) with
          | none => rw [hlk] at hh; exact Option.noConfusion hh
          | some s =>
              rw [hlk] at hh
              injection hh with hh
              exact ⟨[uniqDigest s], by simp [blocksGo, hlk],
                by rw [← hh, concatStr_singleton]⟩
      | true, Val.vnil =>
          simp only [hashGo] at hh
          cases hlk : lookupA sg Val.vnil with
          | none => rw [hlk] at hh; exact Option.noConfusion hh
          | some s =>
              rw [hlk] at hh
              injection hh with hh
              exact ⟨[uniqDigest s], by simp [blocksGo, hlk],
                by rw [← hh, concatStr_singleton]⟩
      | true, Val.vcons v vs =>
          simp only [hashGo] at hh
          cases hlk : lookupA sg (Val.vcons v vs) with
          | none => rw [hlk] at hh; exact Option.noConfusion hh
          | some s =>
              rw [hlk] at hh
              injection hh with hh
              exact ⟨[uniqDigest s], by simp [blocksGo, hlk],
                by rw [← hh, concatStr_singleton]⟩
      | true, Val.kv key w =>
          simp only [hashGo] at hh
          cases hlk : lookupA sg (Val.kv key w) with
          | none => rw [hlk] at hh; exact Option.noConfusion hh
          | some s =>
              rw [hlk] at hh
              injection hh with hh
              exact ⟨[uniqDigest s], by simp [blocksGo, hlk],
                by rw [← hh, concatStr_singleton]⟩
      | false, Val.vcons (Val.kv key w) vs =>
          by_cases hw : w.isCall
          · rw [hashGo_cons_kv sg key w vs hw] at hh
            cases hw1 : hashGo sg true w with
            | none => rw [hw1] at hh; exact Option.noConfusion hh
            | some wh =>
            cases hv1 : hashGo sg false vs with
            | none => rw [hw1, hv1] at hh; exact Option.noConfusion hh
            | some vh =>
            rw [hw1, hv1] at hh
            injection hh with hh
            obtain ⟨wbs, hwbs, hweq⟩ := ih w (by simp <;> omega) true wh hw1
            obtain ⟨vbs, hvbs, hveq⟩ := ih vs (by simp <;> omega) false vh hv1
            refine ⟨wbs ++ vbs, ?_, ?_⟩
            · rw [blocksGo_cons_kv sg key w vs hw, hwbs, hvbs]
            · rw [← hh, concatStr_append, hweq, hveq]
          · rw [hashGo_cons_kv_skip sg key w vs (Bool.eq_false_iff.mpr hw)] at hh
            obtain ⟨bs, hbs, heq⟩ := ih vs (by simp <;> omega) false h hh
            exact ⟨bs, by
              rw [blocksGo_cons_kv_skip sg key w vs (Bool.eq_false_iff.mpr hw)]
              exact hbs, heq⟩
      | false, Val.vcons (Val.call f1 a1 k1) vs =>
          rw [hashGo_cons_call] at hh
          cases hw1 : hashGo sg true (Val.call f1 a1 k1) with
          | none => rw [hw1] at hh; exact Option.noConfusion hh
          | some wh =>
          cases hv1 : hashGo sg false vs with
          | none => rw [hw1, hv1] at hh; exact Option.noConfusion hh
          | some vh =>
          rw [hw1, hv1] at hh
          injection hh with hh
          obtain ⟨wbs, hwbs, hweq⟩ := ih (Val.call f1 a1 k1) (by simp <;> omega) true wh hw1
          obtain ⟨vbs, hvbs, hveq⟩ := ih vs (by simp <;> omega) false vh hv1
          refine ⟨wbs ++ vbs, ?_, ?_⟩
          · rw [blocksGo_cons_call, hwbs, hvbs]
          · rw [← hh, concatStr_append, hweq, hveq]
      | false, Val.vcons (Val.lit n) vs =>
          simp only [hashGo, Val.isCall, if_false] at hh
          obtain ⟨bs, hbs, heq⟩ := ih vs (by simp <;> omega) false h hh
          exact ⟨bs, by simp only [blocksGo, Val.isCall, if_false]; exact hbs, heq⟩
      | false, Val.vcons Val.vnil vs =>
          simp only [hashGo, Val.isCall, if_false] at hh
          obtain ⟨bs, hbs, heq⟩ := ih vs (by simp <;> omega) false h hh
          exact ⟨bs, by simp only [blocksGo, Val.isCall, if_false]; exact hbs, heq⟩
      | false, Val.vcons (Val.vcons x y) vs =>
          simp only [hashGo, Val.isCall, if_false] at hh
          obtain ⟨bs, hbs, heq⟩ := ih vs (by simp <;> omega) false h hh
          exact ⟨bs, by simp only [blocksGo, Val.isCall, if_false]; exact hbs, heq⟩
      | false, Val.lit n =>
          simp only [hashGo] at hh
          injection hh with hh
          exact ⟨[], rfl, by rw [← hh]; rfl⟩
      | false, Val.call f a k =>
          simp only [hashGo] at hh
          injection hh with hh
          exact ⟨[], rfl, by rw [← hh]; rfl⟩
      | false, Val.vnil =>
          simp only [hashGo] at hh
          injection hh with hh
          exact ⟨[], rfl, by rw [← hh]; rfl⟩
      | false, Val.kv key w =>
          simp only [hashGo] at hh
          injection hh with hh
          exact ⟨[], rfl, by rw [← hh]; rfl⟩

/-- Changing the registered implementation at `u` changes the block list of
every node that has `u` (strictly) upstream, and of `u` itself. -/
theorem blocks_ne (sg sg' : List (Val × Step)) (u : Val)
    (hch : ChangedImplAt sg sg' u) :
    ∀ t : Val,
      (∀ bs bs', (u = t ∨ Upstream u t) → blocksGo sg true t = some bs →
        blocksGo sg' true t = some bs' → bs ≠ bs')
      ∧ (∀ bs bs', (∃ c, c ∈ spineDeps t ∧ (u = c ∨ Upstream u c)) →
        blocksGo sg false t = some bs → blocksGo sg' false t = some bs' → bs ≠ bs') := by
  intro t0
  induction t0 using val_strong with
  | _ t ih =>
      constructor
      · intro bs bs' hut hb hb'
        match t, hut with
        | Val.call f a k, hut =>
          rw [blocksGo_node_call] at hb hb'
          cases hlk : lookupA sg (Val.call f a k) with
          | none => rw [hlk] at hb; exact Option.noConfusion hb
          | some s =>
          cases hpa : blocksGo sg false a with
          | none => rw [hlk, hpa] at hb; exact Option.noConfusion hb
          | some pa =>
          cases hpk : blocksGo sg false k with
          | none => rw [hlk, hpa, hpk] at hb; exact Option.noConfusion hb
          | some pk =>
          cases hlk' : lookupA sg' (Val.call f a k) with
          | none => rw [hlk'] at hb'; exact Option.noConfusion hb'
          | some s' =>
          cases hpa' : blocksGo sg' false a with
          | none => rw [hlk', hpa'] at hb'; exact Option.noConfusion hb'
          | some pa' =>
          cases hpk' : blocksGo sg' false k with
          | none => rw [hlk', hpa', hpk'] at hb'; exact Option.noConfusion hb'
          | some pk' =>
          rw [hlk, hpa, hpk] at hb
          rw [hlk', hpa', hpk'] at hb'
          injection hb with hb
          injection hb' with hb'
          subst hb
          subst hb'
          rcases hut with rfl | hup
          · -- the changed node itself: the dependency blocks agree, the
            -- node digest differs
            have hnochildA : ∀ c ∈ spineDeps a,
                ¬(Val.call f a k = c ∨ Upstream (Val.call f a k) c) := by
              intro c hc hor
              have hclt : sizeOf c < sizeOf (Val.call f a k) :=
                sizeOf_depCalls (spine_mem_depCalls (Or.inl hc))
              rcases hor with rfl | hup2
              · exact absurd hclt (lt_irrefl _)
              · exact absurd (lt_trans hup2.sizeOf_lt hclt) (lt_irrefl _)
            have hnochildK : ∀ c ∈ spineDeps k,
                ¬(Val.call f a k = c ∨ Upstream (Val.call f a k) c) := by
              intro c hc hor
              have hclt : sizeOf c < sizeOf (Val.call f a k) :=
                sizeOf_depCalls (spine_mem_depCalls (Or.inr hc))
              rcases hor with rfl | hup2
              · exact absurd hclt (lt_irrefl _)
              · exact absurd (lt_trans hup2.sizeOf_lt hclt) (lt_irrefl _)
            have hagA := (blocks_agree sg sg' _ hch.1 a).2 hnochildA
            have hagK := (blocks_agree sg sg' _ hch.1 k).2 hnochildK
            have hpaeq : pa' = pa := by
              rw [hagA, hpa] at hpa'
              injection hpa' with hx
              exact hx.symm
            have hpkeq : pk' = pk := by
              rw [hagK, hpk] at hpk'
              injection hpk' with hx
              exact hx.symm
            obtain ⟨s0, s0', hlk0, hlk0', htr, harg, hkw, _, hcode⟩ := hch.2
            have hs0 : s0 = s := by
              rw [hlk] at hlk0
              injection hlk0 with hx
              exact hx.symm
            have hs0' : s0' = s' := by
              rw [hlk'] at hlk0'
              injection hlk0' with hx
              exact hx.symm
            have hdig : uniqDigest s' ≠ uniqDigest s := by
              rw [← hs0, ← hs0']
              exact uniqDigest_ne s0 s0' htr harg hkw hcode
            intro heq
            rw [hpaeq, hpkeq] at heq
            have := List.append_cancel_left heq
            injection this with hx
            exact hdig hx.symm
          · -- u is strictly upstream: some dependency block list differs
            have htne : Val.call f a k ≠ u := by
              intro hcontra
              exact absurd (hcontra ▸ hup.sizeOf_lt) (lt_irrefl _)
            have hseq : s' = s := by
              have h9 := hch.1 (Val.call f a k) htne
              rw [hlk, hlk'] at h9
              exact Option.some.inj h9
            subst hseq
            obtain ⟨d, hdmem, hdor⟩ :
                ∃ d, d ∈ depCalls (Val.call f a k) ∧ (u = d ∨ Upstream u d) := by
              cases hup with
              | direct hm => exact ⟨u, hm, Or.inl rfl⟩
              | trans hm h2 => exact ⟨_, hm, Or.inr h2⟩
            by_cases hpaeq : pa = pa'
            · intro heq
              rw [hpaeq] at heq
              have hpkeq : pk = pk' := by
                have h2 := List.append_cancel_left
                  (show pa' ++ (pk ++ [uniqDigest s']) = pa' ++ (pk' ++ [uniqDigest s']) by
                    rw [← List.append_assoc, ← List.append_assoc]
                    exact heq)
                have hlen := blocks_length sg sg' k false pk pk' hpk hpk'
                exact (List.append_inj h2 hlen).1
              rcases List.mem_append.mp (by simpa [depCalls] using hdmem) with hm | hm
              · exact (ih a (by simp <;> omega)).2 pa pa' ⟨d, hm, hdor⟩ hpa hpa' hpaeq
              · exact (ih k (by simp <;> omega)).2 pk pk' ⟨d, hm, hdor⟩ hpk hpk' hpkeq
            · intro heq
              have hlen := blocks_length sg sg' a false pa pa' hpa hpa'
              have h2 : pa ++ (pk ++ [uniqDigest s']) = pa' ++ (pk' ++ [uniqDigest s']) := by
                rw [← List.append_assoc, ← List.append_assoc]
                exact heq
              exact hpaeq (List.append_inj h2 hlen).1
        | Val.lit n, hut =>
          rcases hut with rfl | hup
          · simp only [blocksGo] at hb hb'
            obtain ⟨s0, s0', hlk0, hlk0', htr, harg, hkw, _, hcode⟩ := hch.2
            rw [hlk0] at hb
            rw [hlk0'] at hb'
            injection hb with hb
            injection hb' with hb'
            subst hb
            subst hb'
            intro heq
            injection heq with hx
            exact uniqDigest_ne s0 s0' htr harg hkw hcode hx.symm
          · exfalso
            cases hup with
            | direct hm => simp [depCalls] at hm
            | trans hm _ => simp [depCalls] at hm
        | Val.vnil, hut =>
          rcases hut with rfl | hup
          · simp only [blocksGo] at hb hb'
            obtain ⟨s0, s0', hlk0, hlk0', htr, harg, hkw, _, hcode⟩ := hch.2
            rw [hlk0] at hb
            rw [hlk0'] at hb'
            injection hb with hb
            injection hb' with hb'
            subst hb
            subst hb'
            intro heq
            injection heq with hx
            exact uniqDigest_ne s0 s0' htr harg hkw hcode hx.symm
          · exfalso
            cases hup with
            | direct hm => simp [depCalls] at hm
            | trans hm _ => simp [depCalls] at hm
        | Val.vcons v vs, hut =>
          rcases hut with rfl | hup
          · simp only [blocksGo] at hb hb'
            obtain ⟨s0, s0', hlk0, hlk0', htr, harg, hkw, _, hcode⟩ := hch.2
            rw [hlk0] at hb
            rw [hlk0'] at hb'
            injection hb with hb
            injection hb' with hb'
            subst hb
            subst hb'
            intro heq
            injection heq with hx
            exact uniqDigest_ne s0 s0' htr harg hkw hcode hx.symm
          · exfalso
            cases hup with
            | direct hm => simp [depCalls] at hm
            | trans hm _ => simp [depCalls] at hm
        | Val.kv key w, hut =>
          rcases hut with rfl | hup
          · simp only [blocksGo] at hb hb'
            obtain ⟨s0, s0', hlk0, hlk0', htr, harg, hkw, _, hcode⟩ := hch.2
            rw [hlk0] at hb
            rw [hlk0'] at hb'
            injection hb with hb
            injection hb' with hb'
            subst hb
            subst hb'
            intro heq
            injection heq with hx
            exact uniqDigest_ne s0 s0' htr harg hkw hcode hx.symm
          · exfalso
            cases hup with
            | direct hm => simp [depCalls] at hm
            | trans hm _ => simp [depCalls] at hm
      · intro bs bs' hex hb hb'
        obtain ⟨c, hcmem, hcor⟩ := hex
        match t with
        | Val.vcons (Val.kv key w) vs =>
          by_cases hw : w.isCall
          · rw [blocksGo_cons_kv sg key w vs hw] at hb
            rw [blocksGo_cons_kv sg' key w vs hw] at hb'
            cases hw1 : blocksGo sg true w with
            | none => rw [hw1] at hb; exact Option.noConfusion hb
            | some wb =>
            cases hv1 : blocksGo sg false vs with
            | none => rw [hw1, hv1] at hb; exact Option.noConfusion hb
            | some vb =>
            cases hw2 : blocksGo sg' true w with
            | none => rw [hw2] at hb'; exact Option.noConfusion hb'
            | some wb' =>
            cases hv2 : blocksGo sg' false vs with
            | none => rw [hw2, hv2] at hb'; exact Option.noConfusion hb'
            | some vb' =>
            rw [hw1, hv1] at hb
            rw [hw2, hv2] at hb'
            injection hb with hb
            injection hb' with hb'
            subst hb
            subst hb'
            have hcm2 : c = w ∨ c ∈ spineDeps vs := by
              simpa [spineDeps, hw, List.mem_cons] using hcmem
            by_cases hwbeq : wb = wb'
            · intro heq
              rw [hwbeq] at heq
              have hvbeq : vb = vb' := List.append_cancel_left heq
              rcases hcm2 with rfl | hm
              · exact (ih c (by simp <;> omega)).1 wb wb' hcor hw1 hw2 hwbeq
              · exact (ih vs (by simp <;> omega)).2 vb vb' ⟨c, hm, hcor⟩ hv1 hv2 hvbeq
            · intro heq
              have hlen := blocks_length sg sg' w true wb wb' hw1 hw2
              exact hwbeq (List.append_inj heq hlen).1
          · have hw' : w.isCall = false := Bool.eq_false_iff.mpr hw
            rw [blocksGo_cons_kv_skip sg key w vs hw'] at hb
            rw [blocksGo_cons_kv_skip sg' key w vs hw'] at hb'
            have hcm2 : c ∈ spineDeps vs := by
              simpa [spineDeps, hw'] using hcmem
            exact (ih vs (by simp <;> omega)).2 bs bs' ⟨c, hcm2, hcor⟩ hb hb'
        | Val.vcons (Val.call f1 a1 k1) vs =>
          rw [blocksGo_cons_call] at hb hb'
          cases hw1 : blocksGo sg true (Val.call f1 a1 k1) with
          | none => rw [hw1] at hb; exact Option.noConfusion hb
          | some wb =>
          cases hv1 : blocksGo sg false vs with
          | none => rw [hw1, hv1] at hb; exact Option.noConfusion hb
          | some vb =>
          cases hw2 : blocksGo sg' true (Val.call f1 a1 k1) with
          | none => rw [hw2] at hb'; exact Option.noConfusion hb'
          | some wb' =>
          cases hv2 : blocksGo sg' false vs with
          | none => rw [hw2, hv2] at hb'; exact Option.noConfusion hb'
          | some vb' =>
          rw [hw1, hv1] at hb
          rw [hw2, hv2] at hb'
          injection hb with hb
          injection hb' with hb'
          subst hb
          subst hb'
          have hcm2 : c = Val.call f1 a1 k1 ∨ c ∈ spineDeps vs := by
            simpa [spineDeps, Val.isCall, List.mem_cons] using hcmem
          by_cases hwbeq : wb = wb'
          · intro heq
            rw [hwbeq] at heq
            have hvbeq : vb = vb' := List.append_cancel_left heq
            rcases hcm2 with rfl | hm
            · exact (ih (Val.call f1 a1 k1) (by simp <;> omega)).1 wb wb' hcor hw1 hw2 hwbeq
            · exact (ih vs (by simp <;> omega)).2 vb vb' ⟨c, hm, hcor⟩ hv1 hv2 hvbeq
          · intro heq
            have hlen := blocks_length sg sg' (Val.call f1 a1 k1) true wb wb' hw1 hw2
            exact hwbeq (List.append_inj heq hlen).1
        | Val.vcons (Val.lit n) vs =>
          simp only [blocksGo, Val.isCall, if_false] at hb hb'
          have hcm2 : c ∈ spineDeps vs := by
            simpa [spineDeps, Val.isCall] using hcmem
          exact (ih vs (by simp <;> omega)).2 bs bs' ⟨c, hcm2, hcor⟩ hb hb'
        | Val.vcons Val.vnil vs =>
          simp only [blocksGo, Val.isCall, if_false] at hb hb'
          have hcm2 : c ∈ spineDeps vs := by
            simpa [spineDeps, Val.isCall] using hcmem
          exact (ih vs (by simp <;> omega)).2 bs bs' ⟨c, hcm2, hcor⟩ hb hb'
        | Val.vcons (Val.vcons x y) vs =>
          simp only [blocksGo, Val.isCall, if_false] at hb hb'
          have hcm2 : c ∈ spineDeps vs := by
            simpa [spineDeps, Val.isCall] using hcmem
          exact (ih vs (by simp <;> omega)).2 bs bs' ⟨c, hcm2, hcor⟩ hb hb'
        | Val.lit n => simp [spineDeps] at hcmem
        | Val.call f a k => simp [spineDeps] at hcmem
        | Val.vnil => simp [spineDeps] at hcmem
        | Val.kv key w => simp [spineDeps] at hcmem

theorem C2b_aux (sg sg' : List (Val × Step)) (u : Val) (s : Step) (h h' : String)
    (hwf : WFsg sg) (hwf' : WFsg sg') (hch : ChangedImplAt sg sg' u)
    (hup : Upstream u s.trail)
    (hh : s.hash sg = some h) (hh' : s.hash sg' = some h') : h ≠ h' := by
  obtain ⟨f, a, k, ht⟩ : ∃ f a k, s.trail = Val.call f a k := by
    match he : s.trail with
    | Val.call f a k => exact ⟨f, a, k, rfl⟩
    | Val.lit n =>
        rw [he] at hup
        exfalso
        cases hup with
        | direct hm => simp [depCalls] at hm
        | trans hm _ => simp [depCalls] at hm
    | Val.vnil =>
        rw [he] at hup
        exfalso
        cases hup with
        | direct hm => simp [depCalls] at hm
        | trans hm _ => simp [depCalls] at hm
    | Val.vcons x y =>
        rw [he] at hup
        exfalso
        cases hup with
        | direct hm => simp [depCalls] at hm
        | trans hm _ => simp [depCalls] at hm
    | Val.kv key w =>
        rw [he] at hup
        exfalso
        cases hup with
        | direct hm => simp [depCalls] at hm
        | trans hm _ => simp [depCalls] at hm
  rw [ht] at hup
  simp only [Step.hash, ht, Option.bind_eq_bind] at hh hh'
  cases hpa : hashGo sg false a with
  | none => rw [hpa] at hh; simp at hh
  | some pa =>
  cases hpk : hashGo sg false k with
  | none => rw [hpa, hpk] at hh; simp at hh
  | some pk =>
  cases hpa' : hashGo sg' false a with
  | none => rw [hpa'] at hh'; simp at hh'
  | some pa' =>
  cases hpk' : hashGo sg' false k with
  | none => rw [hpa', hpk'] at hh'; simp at hh'
  | some pk' =>
  rw [hpa, hpk] at hh
  rw [hpa', hpk'] at hh'
  simp only [Option.some_bind, Option.pure_def, Option.some.injEq] at hh hh'
  by_cases hd : s.has_deps
  case neg =>
    have hd0 : Step.has_deps s = false := Bool.eq_false_iff.mpr hd
    have hd' : spineHasCall a = false ∧ spineHasCall k = false := by
      simpa only [Step.has_deps, ht, Bool.or_eq_false_iff] using hd0
    have hda : spineDeps a = [] := noCall_spineDeps a hd'.1
    have hdk : spineDeps k = [] := noCall_spineDeps k hd'.2
    exfalso
    cases hup with
    | direct hm => rw [depCalls, hda, hdk] at hm; simp at hm
    | trans hm _ => rw [depCalls, hda, hdk] at hm; simp at hm
  case pos =>
    rw [hd, if_pos rfl] at hh hh'
    obtain ⟨pab, hpab, hpaeq⟩ := hash_blocks sg hwf a false pa hpa
    obtain ⟨pkb, hpkb, hpkeq⟩ := hash_blocks sg hwf k false pk hpk
    obtain ⟨pab', hpab', hpaeq'⟩ := hash_blocks sg' hwf' a false pa' hpa'
    obtain ⟨pkb', hpkb', hpkeq'⟩ := hash_blocks sg' hwf' k false pk' hpk'
    have hBS : h = concatStr (pab ++ pkb ++ [uniqDigest s]) := by
      rw [concatStr_append, concatStr_append, concatStr_singleton, ← hh,
        hpaeq, hpkeq, String.append_assoc]
    have hBS' : h' = concatStr (pab' ++ pkb' ++ [uniqDigest s]) := by
      rw [concatStr_append, concatStr_append, concatStr_singleton, ← hh',
        hpaeq', hpkeq', String.append_assoc]
    obtain ⟨d, hdmem, hdor⟩ :
        ∃ d, d ∈ depCalls (Val.call f a k) ∧ (u = d ∨ Upstream u d) := by
      cases hup with
      | direct hm => exact ⟨u, hm, Or.inl rfl⟩
      | trans hm h2 => exact ⟨_, hm, Or.inr h2⟩
    have hBSne : pab ++ pkb ++ [uniqDigest s] ≠ pab' ++ pkb' ++ [uniqDigest s] := by
      by_cases hpabeq : pab = pab'
      · intro heq
        rw [hpabeq] at heq
        have h2 := List.append_cancel_right heq
        have hpkbeq : pkb = pkb' := List.append_cancel_left h2
        rcases List.mem_append.mp (by simpa [depCalls] using hdmem) with hm | hm
        · exact (blocks_ne sg sg' u hch a).2 pab pab' ⟨d, hm, hdor⟩ hpab hpab' hpabeq
        · exact (blocks_ne sg sg' u hch k).2 pkb pkb' ⟨d, hm, hdor⟩ hpkb hpkb' hpkbeq
      · intro heq
        have hlen := blocks_length sg sg' a false pab pab' hpab hpab'
        have h2 : pab ++ (pkb ++ [uniqDigest s]) = pab' ++ (pkb' ++ [uniqDigest s]) := by
          rw [← List.append_assoc, ← List.append_assoc]
          exact heq
        exact hpabeq (List.append_inj h2 hlen).1
    intro heq
    apply hBSne
    have hdata : ((pab ++ pkb ++ [uniqDigest s]).map String.data).flatten
        = ((pab' ++ pkb' ++ [uniqDigest s]).map String.data).flatten := by
      rw [← concatStr_data, ← concatStr_data, ← hBS, ← hBS', heq]
    have hblocks1 : ∀ b ∈ (pab ++ pkb ++ [uniqDigest s]).map String.data, IsBlock b := by
      intro x hx
      obtain ⟨b, hbmem, rfl⟩ := List.mem_map.mp hx
      rcases List.mem_append.mp hbmem with hm | hm
      · rcases List.mem_append.mp hm with hm2 | hm2
        · exact blocks_are_blocks sg a false pab hpab b hm2
        · exact blocks_are_blocks sg k false pkb hpkb b hm2
      · simp only [List.mem_singleton] at hm
        subst hm
        exact uniqDigest_isBlock s
    have hblocks2 : ∀ b ∈ (pab' ++ pkb' ++ [uniqDigest s]).map String.data, IsBlock b := by
      intro x hx
      obtain ⟨b, hbmem, rfl⟩ := List.mem_map.mp hx
      rcases List.mem_append.mp hbmem with hm | hm
      · rcases List.mem_append.mp hm with hm2 | hm2
        · exact blocks_are_blocks sg' a false pab' hpab' b hm2
        · exact blocks_are_blocks sg' k false pkb' hpkb' b hm2
      · simp only [List.mem_singleton] at hm
        subst hm
        exact uniqDigest_isBlock s
    exact data_map_inj _ _ (blocks_flatten_inj _ _ hblocks1 hblocks2 hdata)

/-- C2: `hash()` is the concatenation of the hashes of all direct
`previous()` steps — computed recursively by the same algorithm, in
`previous()` order, empty when `has_deps()` is false — followed by the
digest of `(trail, args, kwargs, co_code, co_consts)`; consequently,
changing the implementation (the compiled code) of the target of any
upstream dependency, positional or keyword, changes the downstream step's
`hash()`. -/
theorem C2_hash_composition :
    (∀ (sg : List (Val × Step)) (s : Step) (prev : List Step) (hs : List String),
      WFsg sg → s.previous sg = some prev →
      prev.mapM (fun p => p.hash sg) = some hs →
      s.hash sg = some (concatStr hs ++ uniqDigest s))
    ∧ (∀ (sg sg' : List (Val × Step)) (u : Val) (s : Step) (h h' : String),
      WFsg sg → WFsg sg' → ChangedImplAt sg sg' u → Upstream u s.trail →
      s.hash sg = some h → s.hash sg' = some h' → h ≠ h') :=
  ⟨fun sg s prev hs hwf hp hm => C2a_aux sg s prev hs hwf hp hm,
   fun sg sg' u s h h' hwf hwf' hch hup hh hh' =>
     C2b_aux sg sg' u s h h' hwf hwf' hch hup hh hh'⟩

theorem WFsg_nil : WFsg ([] : List (Val × Step)) := by
  intro t s h
  simp [lookupA] at h

theorem WFsg_cons (k : Val) (v : Step) (rest : List (Val × Step)) (hv : v.trail = k)
    (hr : WFsg rest) : WFsg ((k, v) :: rest) := by
  intro t s h
  simp only [lookupA] at h
  by_cases ht : t = k
  · rw [if_pos ht] at h
    injection h with hx
    rw [← hx, hv, ht]
  · rw [if_neg ht] at h
    exact hr t s h

/-- Fixture: the `square(3)` trail. -/
def wT1 : Val := Call "square" [.lit 3] []

/-- Fixture: the `addOne(square(3))` trail. -/
def wT2 : Val := Call "addOne" [wT1] []

/-- Fixture: the registered `square(3)` step. -/
def wS1 : Step := ⟨wT1, sqFn, [.lit 3], []⟩

/-- Fixture: the `square(3)` step re-registered with a changed
implementation of `square`. -/
def wS1x : Step := ⟨wT1, sqFn2, [.lit 3], []⟩

/-- Fixture: the downstream `addOne` step. -/
def wS2 : Step := ⟨wT2, incFn, [wT1], []⟩

/-- Fixture: the step registry of the pipeline. -/
def wsg : List (Val × Step) := [(wT1, wS1), (wT2, wS2)]

/-- Fixture: the registry after changing the implementation of `square`. -/
def wsgx : List (Val × Step) := [(wT1, wS1x), (wT2, wS2)]

/-- Fixture: the downstream hash before the upstream change. -/
def wH1 : String := (wS2.hash wsg).getD ""

/-- Fixture: the downstream hash after the upstream change. -/
def wH2 : String := (wS2.hash wsgx).getD ""

/-- C2 witness: the chained pipeline's hash is the upstream hash followed
by the downstream digest, and changing `square`'s compiled code changes
the downstream `addOne` step's hash. -/
theorem C2_hash_composition_witness :
    wS2.hash wsg = some (concatStr [(wS1.hash wsg).getD ""] ++ uniqDigest wS2)
    ∧ wS2.hash wsg = some wH1 ∧ wS2.hash wsgx = some wH2 ∧ wH1 ≠ wH2 := by
  refine ⟨?_, rfl, rfl, ?_⟩
  · exact C2_hash_composition.1 wsg wS2 [wS1] [(wS1.hash wsg).getD ""]
      (WFsg_cons _ _ _ rfl (WFsg_cons _ _ _ rfl WFsg_nil)) rfl rfl
  · exact C2_hash_composition.2 wsg wsgx wT1 wS2 wH1 wH2
      (WFsg_cons _ _ _ rfl (WFsg_cons _ _ _ rfl WFsg_nil))
      (WFsg_cons _ _ _ rfl (WFsg_cons _ _ _ rfl WFsg_nil))
      ⟨fun c hc => by simp only [wsgx, wsg, lookupA, if_neg hc],
       wS1, wS1x, rfl, rfl, rfl, rfl, rfl, rfl,
       fun hco => absurd hco.1 (by decide)⟩
      (Upstream.direct (by decide)) rfl rfl

end Trails
